import Mathlib

/-!
# Course catalog loader (CourseLoading.cpp)

A shallow embedding of `CourseList` from `src/CourseLoading.cpp`: the two-pass
`processFile`, `openFile`, `printCourse`, `printAll` and `displayCourse`,
together with the part of the C++ stream library they rely on
(`std::getline` on an input stream with its `eofbit` / `failbit` flags).

A `std::string` is a list of characters; the opened file is the list of its
characters.
-/

namespace CourseLoading

/-- A `std::string`. -/
abbrev Str := List Char

/-! ## The data model -/

/-- The `struct Course` of the source (lines 26-35). -/
structure Course where
  courseNumber : Str
  courseName : Str
  prerequisites : List Str
  key : Str
deriving DecidableEq, Repr

/-- A default-constructed `Course` (`Course newCourse;`). -/
def Course.empty : Course := ⟨[], [], [], []⟩

/-! ## Input streams and `std::getline` -/

/-- The state of an input stream (`ifstream`, `stringstream`): the characters
not yet read, and the `eofbit` and `failbit` flags. -/
structure IStream where
  buf : Str
  eofbit : Bool
  failbit : Bool
deriving DecidableEq, Repr

/-- A freshly opened (or cleared and rewound) stream over `content`. -/
def IStream.open (content : Str) : IStream := ⟨content, false, false⟩

/-- The member `good()`: no flag is set. -/
def IStream.good (s : IStream) : Bool := !s.eofbit && !s.failbit

/-- The conversion of a stream to `bool`: `!fail()`. -/
def IStream.ok (s : IStream) : Bool := !s.failbit

/-- Extraction of characters up to the delimiter: the characters extracted
before it, and the characters left after it when the delimiter was met
(`none` when the end of the input was reached first). -/
def extract (delim : Char) : Str → Str × Option Str
  | [] => ([], none)
  | c :: cs =>
    if c = delim then ([], some cs)
    else ((c :: (extract delim cs).1), (extract delim cs).2)

/-- The call `std::getline(s, str, delim)`: the stream afterwards, and the new
value of `str` (`none` when `str` is left untouched).  When the stream is not
`good()` the sentry fails: `failbit` is set and `str` is untouched.  Otherwise
`str` is erased and characters are extracted until the delimiter (extracted and
dropped) or the end of the input (`eofbit`); `failbit` is set when nothing at
all was extracted. -/
def getline (s : IStream) (delim : Char) : IStream × Option Str :=
  if s.good then
    match extract delim s.buf with
    | (tok, some rest) => (⟨rest, false, false⟩, some tok)
    | (tok, none) => (⟨[], true, tok.isEmpty⟩, some tok)
  else (⟨s.buf, s.eofbit, true⟩, none)

/-! ## `CourseList::processFile` -/

/-- What `processFile` prints and returns. -/
inductive LoadStatus where
  /-- The line `Courses loaded.` is printed, `true` is returned. -/
  | coursesLoaded
  /-- The line `Error: Invalid prerequisite.` is printed, `false` is returned. -/
  | invalidPrerequisite
  /-- The line `Error: Course is missing a course number or course name.` is
  printed, `false` is returned. -/
  | missingNumberOrName
deriving DecidableEq, Repr

/-- The value `processFile` returns. -/
def LoadStatus.returned : LoadStatus → Bool
  | .coursesLoaded => true
  | _ => false

/-- The line `processFile` writes to `cout`. -/
def LoadStatus.message : LoadStatus → Str
  | .coursesLoaded => "Courses loaded.\n".toList
  | .invalidPrerequisite => "Error: Invalid prerequisite.\n".toList
  | .missingNumberOrName =>
    "Error: Course is missing a course number or course name.\n".toList

/-- The first loop of `processFile` (lines 88-99), run for at most `fuel`
tests of its condition: `courseData` is the variable of that name, `courseNums`
the set (a list without order significance).  The result is the final
`courseData` and `courseNums`; `none` when `fuel` runs out. -/
def pass1 : Nat → IStream → Str → List Str → Option (Str × List Str)
  | 0, _, _, _ => none
  | fuel + 1, fileStream, courseData, courseNums =>
    if fileStream.good then
      let r := getline fileStream '\n'
      let courseData := r.2.getD courseData
      let stream := IStream.open courseData
      if courseData ≠ [] then
        match getline stream ',' with
        | (s1, some token) =>
          if s1.ok then pass1 fuel r.1 courseData (List.insert token courseNums)
          else pass1 fuel r.1 courseData courseNums
        | (_, none) => pass1 fuel r.1 courseData courseNums
      else pass1 fuel r.1 courseData courseNums
    else some (courseData, courseNums)

/-- The loop over the remaining fields of a line (lines 123-132), run for at
most `fuel` calls of `getline`.  `some (some ps)`: the loop ended with the
prerequisite vector `ps`; `some none`: the function returned `false` from
inside the loop (invalid prerequisite); `none`: `fuel` ran out. -/
def prereqLoop : Nat → IStream → List Str → List Str → Option (Option (List Str))
  | 0, _, _, _ => none
  | fuel + 1, stream, courseNums, prerequisites =>
    match getline stream ',' with
    | (s1, some token) =>
      if s1.ok then
        if token ∈ courseNums then
          prereqLoop fuel s1 courseNums (prerequisites ++ [token])
        else some none
      else some (some prerequisites)
    | (_, none) => some (some prerequisites)

/-- What one turn of the second loop does after reading its line. -/
inductive LineResult where
  /-- The function returns `false` with this status. -/
  | abort (status : LoadStatus)
  /-- The course is appended to `courseList`. -/
  | push (course : Course)
  /-- The line is empty: nothing happens. -/
  | skip
deriving DecidableEq, Repr

/-- The body of the second loop (lines 110-142) on the line `courseData`;
`none` when the fuel of the inner loop runs out. -/
def processLine (courseNums : List Str) (courseData : Str) : Option LineResult :=
  let stream := IStream.open courseData
  let newCourse := Course.empty
  if courseData ≠ [] then
    match getline stream ',' with
    | (s1, some token) =>
      if s1.ok then
        let newCourse := { newCourse with courseNumber := token, key := token }
        match getline s1 ',' with
        | (s2, some token) =>
          if s2.ok then
            let newCourse := { newCourse with courseName := token }
            match prereqLoop (courseData.length + 2) s2 courseNums
                newCourse.prerequisites with
            | none => none
            | some none => some (.abort .invalidPrerequisite)
            | some (some ps) => some (.push { newCourse with prerequisites := ps })
          else some (.abort .missingNumberOrName)
        | (_, none) => some (.abort .missingNumberOrName)
      else some (.push newCourse)
    | (_, none) => some (.push newCourse)
  else some .skip

/-- The second loop of `processFile` (lines 107-145), run for at most `fuel`
tests of its condition, on the member `courseList`. -/
def pass2 : Nat → IStream → Str → List Str → List Course →
    Option (LoadStatus × List Course)
  | 0, _, _, _, _ => none
  | fuel + 1, fileStream, courseData, courseNums, courseList =>
    if fileStream.good then
      let r := getline fileStream '\n'
      let courseData := r.2.getD courseData
      match processLine courseNums courseData with
      | none => none
      | some (.abort status) => some (status, courseList)
      | some (.push newCourse) =>
        pass2 fuel r.1 courseData courseNums (courseList ++ [newCourse])
      | some .skip => pass2 fuel r.1 courseData courseNums courseList
    else some (.coursesLoaded, courseList)

/-- The member function `processFile` on an opened file with the characters
`content` and the member `courseList`: the status (message and return value)
and `courseList` afterwards; `none` only if a loop ran out of fuel.  Between
the loops the stream is cleared and rewound (lines 102-104). -/
def processFile (content : Str) (courseList : List Course) :
    Option (LoadStatus × List Course) :=
  match pass1 (content.length + 2) (IStream.open content) [] [] with
  | none => none
  | some (courseData, courseNums) =>
    pass2 (content.length + 2) (IStream.open content) courseData courseNums courseList

/-- The member function `openFile` (lines 64-77).  `file` is the content of the
file named by the user, `none` when it cannot be opened.  The result is the
value returned, the text written to `cerr` / `cout`, and `courseList`
afterwards.  On a successful open the stream starts with no flag set. -/
def openFile (file : Option Str) (courseList : List Course) :
    Option (Bool × Str × List Course) :=
  match file with
  | none => some (false, "Error opening file.\n".toList, courseList)
  | some content =>
    match processFile content courseList with
    | none => none
    | some (status, courseList) => some (true, status.message, courseList)

/-! ## `CourseList::displayCourse`, `printCourse`, `printAll` -/

/-- Subtraction of `size_t` values (64 bits), wrapping around below zero. -/
def usub64 (a b : Nat) : Nat := if b ≤ a then a - b else 2 ^ 64 - (b - a)

/-- The largest value of an `int` (32 bits). -/
def intMax : Nat := 2 ^ 31 - 1

/-- The loop `for (int i = 0; i < bound; i++)` of `displayCourse`
(lines 186-188), given the number of turns still to run, the index `i` and the
text written so far.  The bound is computed once from the vector, which the
loop does not change, so from `i = 0` the loop runs `bound` turns as long as
`i` can be incremented.  The index is an `int`: the increment `i++` at
`i = intMax` overflows, and the behaviour of the program is then undefined.
The result is `none` when `at(i)` throws `std::out_of_range` and when `i++`
overflows. -/
def displayLoop (prerequisites : List Str) : Nat → Nat → Str → Option Str
  | 0, _, out => some out
  | turns + 1, i, out =>
    match prerequisites.get? i with
    | none => none
    | some p =>
      if i < intMax then
        displayLoop prerequisites turns (i + 1) (out ++ p ++ ", ".toList)
      else none

/-- The member function `displayCourse` (lines 179-192): the text written to
`cout`; `none` when `at` throws `std::out_of_range` or the loop index
overflows. -/
def displayCourse (course : Course) : Option Str :=
  let out := course.courseNumber ++ ": ".toList ++ course.courseName ++ "\n".toList
  if course.prerequisites.length ≠ 0 then
    let out := out ++ "\t Prerequisites: ".toList
    let bound := usub64 course.prerequisites.length 1
    match displayLoop course.prerequisites bound 0 out with
    | none => none
    | some out =>
      match course.prerequisites.get? (usub64 course.prerequisites.length 1) with
      | none => none
      | some p => some (out ++ p ++ "\n".toList)
  else some out

/-- The member function `printCourse` (lines 153-162) on `courseList`: the
value returned and the text written; `none` when `displayCourse` has no
result. -/
def printCourse : List Course → Str → Option (Bool × Str)
  | [], _ => some (false, "Course not found.\n".toList)
  | course :: rest, courseNumber =>
    if course.courseNumber = courseNumber then
      match displayCourse course with
      | none => none
      | some out => some (true, out)
    else printCourse rest courseNumber

/-- The comparison `operator<` of `std::string`: lexicographic on the
characters, a proper prefix being smaller. -/
def strLt : Str → Str → Bool
  | _, [] => false
  | [], _ :: _ => true
  | a :: as, b :: bs =>
    if a < b then true else if b < a then false else strLt as bs

/-- The member `Course::operator<` (lines 32-34). -/
def Course.lt (a b : Course) : Bool := strLt a.key b.key

/-- What the C++ standard promises of `std::sort(first, last)` with
`operator<`: the range afterwards is a rearrangement of the range before, and
no element is smaller than an element before it.  The library routine is not
part of the repository; it enters `printAll` as a parameter with this
contract. -/
def SortContract (sort : List Course → List Course) : Prop :=
  ∀ l, (sort l).Perm l ∧ (sort l).Pairwise (fun a b => Course.lt b a = false)

/-- The loop of `printAll` (lines 169-171): the text written; `none` when
`displayCourse` has no result for one of the records. -/
def displayAll : List Course → Option Str
  | [] => some []
  | course :: rest =>
    match displayCourse course with
    | none => none
    | some out =>
      match displayAll rest with
      | none => none
      | some outs => some (out ++ outs)

/-- The member function `printAll` (lines 167-172) with `std::sort` as the
parameter `sort`: `courseList` afterwards (sorted in place, before anything is
displayed) and the text written by the loop. -/
def printAll (sort : List Course → List Course) (courseList : List Course) :
    List Course × Option Str :=
  let courseList := sort courseList
  (courseList, displayAll courseList)

/-! ## Lines and fields -/

/-- The pieces of `s` between occurrences of `delim`, the last one running to
the end of `s`: a string with `k` delimiters has `k + 1` pieces. -/
def splitOn (delim : Char) : Str → List Str
  | [] => [[]]
  | c :: cs =>
    if c = delim then [] :: splitOn delim cs
    else
      match splitOn delim cs with
      | [] => [[c]]
      | h :: t => (c :: h) :: t

/-- The lines of a file: its pieces between newline characters. -/
def fileLines (content : Str) : List Str := splitOn '\n' content

/-- The non-empty lines of a file, in order. -/
def nonEmptyLines (content : Str) : List Str :=
  (fileLines content).filter (fun l => l ≠ [])

/-- The strings that successive calls `getline(stream, token, delim)` extract
from a stream over `s` until one fails: the pieces of `s` between delimiters,
except that an empty piece after the last delimiter (or an empty `s`) gives no
string. -/
def tokens (delim : Char) : Str → List Str
  | [] => []
  | c :: cs =>
    if c = delim then [] :: tokens delim cs
    else
      match tokens delim cs with
      | [] => [[c]]
      | h :: t => (c :: h) :: t

/-- The fields `processFile` extracts from a line. -/
def fields (line : Str) : List Str := tokens ',' line

/-- The record built from a line that has a number and a name: number and key
are the first field, the name the second, the prerequisites the others. -/
def recordOf (line : Str) : Course :=
  { courseNumber := (fields line).headD []
    courseName := ((fields line).drop 1).headD []
    prerequisites := (fields line).drop 2
    key := (fields line).headD [] }

/-- The record built from the fields of the specification: the pieces of the
line between commas, the last one running to the end of the line. -/
def specRecordOf (line : Str) : Course :=
  { courseNumber := (splitOn ',' line).headD []
    courseName := ((splitOn ',' line).drop 1).headD []
    prerequisites := (splitOn ',' line).drop 2
    key := (splitOn ',' line).headD [] }

/-- The course numbers of a file: the first field of each non-empty line. -/
def courseNumbers (content : Str) : List Str :=
  (nonEmptyLines content).filterMap (fun l => (fields l).head?)

/-! ## The loops of `processFile` as recursions over lines and fields -/

/-- The strings that calls of `getline` with `delim` will still extract from
the stream `s`. -/
def pendingTokens (delim : Char) (s : IStream) : List Str :=
  if s.good then tokens delim s.buf else []

/-- The lines the loops `while (fileStream.good())` will still read from `s`. -/
def pendingLines (s : IStream) : List Str :=
  if s.good then splitOn '\n' s.buf else []

/-- The loop over the remaining fields, on the list of those fields. -/
def checkPrereqs (courseNums : List Str) : List Str → List Str → Option (List Str)
  | [], ps => some ps
  | t :: ts, ps => if t ∈ courseNums then checkPrereqs courseNums ts (ps ++ [t]) else none

/-- The body of the second loop, on the fields of the line. -/
def lineResult (courseNums : List Str) (line : Str) : LineResult :=
  if line = [] then .skip
  else
    match fields line with
    | [] => .push Course.empty
    | [_] => .abort .missingNumberOrName
    | n :: m :: ps =>
      if ∀ p ∈ ps, p ∈ courseNums then .push ⟨n, m, ps, n⟩
      else .abort .invalidPrerequisite

/-- The second loop, on the list of lines. -/
def scanLines (courseNums : List Str) : List Str → List Course → LoadStatus × List Course
  | [], cl => (.coursesLoaded, cl)
  | l :: ls, cl =>
    match lineResult courseNums l with
    | .abort status => (status, cl)
    | .push c => scanLines courseNums ls (cl ++ [c])
    | .skip => scanLines courseNums ls cl

/-- The first loop, on the list of lines. -/
def collectNums : List Str → List Str → List Str
  | [], nums => nums
  | l :: ls, nums =>
    collectNums ls
      (if l = [] then nums
       else match fields l with
         | [] => nums
         | t :: _ => List.insert t nums)

/-! ## Reference data -/

/-- The example file of the specification (section 6). -/
def exampleFile : Str :=
  ("CS101,Intro to Programming\n" ++ "CS201,Data Structures,CS101\n" ++
    "CS301,Algorithms,CS101,CS201\n").toList

/-- The three records of the example file. -/
def exampleCatalog : List Course :=
  [ ⟨"CS101".toList, "Intro to Programming".toList, [], "CS101".toList⟩,
    ⟨"CS201".toList, "Data Structures".toList, ["CS101".toList], "CS201".toList⟩,
    ⟨"CS301".toList, "Algorithms".toList, ["CS101".toList, "CS201".toList],
      "CS301".toList⟩ ]

/-- The text the specification asks of `display`: the line `number: name`,
and for a non-empty prerequisite list a second line with the numbers joined
by a comma and a space. -/
def displayText (course : Course) : Str :=
  course.courseNumber ++ ": ".toList ++ course.courseName ++ "\n".toList ++
    (if course.prerequisites = [] then []
     else "\t Prerequisites: ".toList ++
       ", ".toList.intercalate course.prerequisites ++ "\n".toList)

/-- An insertion sort by `operator<`: one routine that meets the contract of
`std::sort`. -/
def insertionSortCourses (l : List Course) : List Course :=
  l.insertionSort (fun a b => Course.lt b a = false)

/-- The second loop accepts the line: it is empty, or it has a number and a
name and each of its further fields is in `courseNums`. -/
def LineAccepted (courseNums : List Str) (line : Str) : Prop :=
  line = [] ∨ (2 ≤ (fields line).length ∧ ∀ p ∈ (fields line).drop 2, p ∈ courseNums)

/-- The file whose lines are `ls`: the lines with a newline character between
consecutive ones. -/
def joinLines (ls : List Str) : Str := "\n".toList.intercalate ls

/-- The file with its blank lines removed. -/
def removeBlankLines (content : Str) : Str := joinLines (nonEmptyLines content)

/-- The strings for which the calls `getline(stream, token, ',')` made on one
line (lines 113, 119 and 123) return a stream that converts to `true`, in
order, up to the first call that fails; at most `fuel` calls. -/
def getlineAll : Nat → IStream → List Str
  | 0, _ => []
  | fuel + 1, stream =>
    match getline stream ',' with
    | (s1, some token) => if s1.ok then token :: getlineAll fuel s1 else []
    | (_, none) => []

/-- The fields the loader extracts from the line `courseData`: what the calls
of `getline` on `stringstream stream(courseData)` yield. -/
def extractedFields (courseData : Str) : List Str :=
  getlineAll (courseData.length + 2) (IStream.open courseData)

/-- Every prerequisite of every record of the collection is the number of a
record of the collection. -/
def PrereqsStored (cl : List Course) : Prop :=
  ∀ c ∈ cl, ∀ p ∈ c.prerequisites, ∃ c2 ∈ cl, c2.courseNumber = p

/-- A sequence of calls of `openFile`, one per entry of `files` (`none` for a
file that cannot be opened), starting from `courseList`: what each call
returned and wrote, and the collection after the last call. -/
def openFiles : List (Option Str) → List Course → Option (List (Bool × Str) × List Course)
  | [], courseList => some ([], courseList)
  | file :: rest, courseList =>
    match openFile file courseList with
    | none => none
    | some (returned, out, courseList) =>
      match openFiles rest courseList with
      | none => none
      | some (log, courseList) => some ((returned, out) :: log, courseList)

/-- The arguments of the calls `at(i)` made by the loop of `displayCourse`, in
order, up to and including one that throws, and up to the increment `i++` that
overflows. -/
def loopAtCalls (prerequisites : List Str) : Nat → Nat → List Nat
  | 0, _ => []
  | turns + 1, i =>
    i :: (match prerequisites.get? i with
      | none => []
      | some _ =>
        if i < intMax then loopAtCalls prerequisites turns (i + 1) else [])

/-- The arguments of all the calls of `at` made by `displayCourse`, in order,
as far as the behaviour of the program is defined: up to and including one
that throws, and up to an increment of the loop index that overflows. -/
def displayCourseAtCalls (course : Course) : List Nat :=
  if course.prerequisites.length ≠ 0 then
    let bound := usub64 course.prerequisites.length 1
    match displayLoop course.prerequisites bound 0 [] with
    | none => loopAtCalls course.prerequisites bound 0
    | some _ =>
      loopAtCalls course.prerequisites bound 0 ++
        [usub64 course.prerequisites.length 1]
  else []

instance (cl : List Course) : Decidable (PrereqsStored cl) := by
  unfold PrereqsStored
  exact inferInstance

/-- The element `*(begin + i)` of the range being sorted; the routines below
read inside the range only. -/
def elemAt (a : List Course) (i : Nat) : Course := a.getD i Course.empty

/-- The call `std::iter_swap(begin + i, begin + j)`. -/
def iterSwap (a : List Course) (i j : Nat) : List Course :=
  (a.set i (elemAt a j)).set j (elemAt a i)

/-- The routine `__unguarded_linear_insert(begin + last)` with `val` the element
moved out of that place: `val` moves towards the front past every element that
is greater, the elements passed moving up by one place.  The argument is
`last`; `next` is `last - 1`.  The routine does not test for the front of the
range: its callers see to it that an element not greater than `val` stands
before `last`, so the case `0` is met only with nothing left to pass. -/
def unguardedLinearInsert (a : List Course) (val : Course) : Nat → List Course
  | 0 => a.set 0 val
  | next + 1 =>
    if Course.lt val (elemAt a next) then
      unguardedLinearInsert (a.set (next + 1) (elemAt a next)) val next
    else a.set (next + 1) val

/-- The two statements `std::move_backward(first, i, i + 1); *first = val` of
`__insertion_sort`, with `val` the element at `i`. -/
def moveToFirst (a : List Course) (first i : Nat) : List Course :=
  a.take first ++ elemAt a i :: ((a.drop first).take (i - first) ++ a.drop (i + 1))

/-- The loop of `__insertion_sort(first, last)`, for `turns` values of `i`. -/
def insertionSortLoop (first : Nat) : Nat → Nat → List Course → List Course
  | 0, _, a => a
  | turns + 1, i, a =>
    insertionSortLoop first turns (i + 1)
      (if Course.lt (elemAt a i) (elemAt a first) then moveToFirst a first i
       else unguardedLinearInsert a (elemAt a i) i)

/-- The routine `__insertion_sort(first, last)`. -/
def insertionSort (a : List Course) (first last : Nat) : List Course :=
  if first = last then a else insertionSortLoop first (last - (first + 1)) (first + 1) a

/-- The routine `__unguarded_insertion_sort(first, last)`, for `turns` values
of `i` from `i` on. -/
def unguardedInsertionSort : Nat → Nat → List Course → List Course
  | 0, _, a => a
  | turns + 1, i, a =>
    unguardedInsertionSort turns (i + 1) (unguardedLinearInsert a (elemAt a i) i)

/-- The routine `__final_insertion_sort(first, last)`; the threshold is 16. -/
def finalInsertionSort (a : List Course) (first last : Nat) : List Course :=
  if last - first > 16 then
    unguardedInsertionSort (last - (first + 16)) (first + 16)
      (insertionSort a first (first + 16))
  else insertionSort a first last

/-- The routine `__move_median_to_first(result, x, y, z)`. -/
def moveMedianToFirst (a : List Course) (result x y z : Nat) : List Course :=
  if Course.lt (elemAt a x) (elemAt a y) then
    if Course.lt (elemAt a y) (elemAt a z) then iterSwap a result y
    else if Course.lt (elemAt a x) (elemAt a z) then iterSwap a result z
    else iterSwap a result x
  else if Course.lt (elemAt a x) (elemAt a z) then iterSwap a result x
  else if Course.lt (elemAt a y) (elemAt a z) then iterSwap a result z
  else iterSwap a result y

/-- The loop `while (comp(first, pivot)) ++first` of `__unguarded_partition`. -/
def scanUp (a : List Course) (pivot : Nat) : Nat → Nat → Nat
  | 0, first => first
  | fuel + 1, first =>
    if Course.lt (elemAt a first) (elemAt a pivot) then scanUp a pivot fuel (first + 1)
    else first

/-- The loop `while (comp(pivot, last)) --last` of `__unguarded_partition`. -/
def scanDown (a : List Course) (pivot : Nat) : Nat → Nat
  | 0 => 0
  | last + 1 =>
    if Course.lt (elemAt a pivot) (elemAt a (last + 1)) then scanDown a pivot last
    else last + 1

/-- The routine `__unguarded_partition(first, last, pivot)`: the range
afterwards and the cut. -/
def unguardedPartition : Nat → List Course → Nat → Nat → Nat → List Course × Nat
  | 0, a, first, _, _ => (a, first)
  | fuel + 1, a, first, last, pivot =>
    let first := scanUp a pivot a.length first
    let last := scanDown a pivot (last - 1)
    if first < last then unguardedPartition fuel (iterSwap a first last) (first + 1) last pivot
    else (a, first)

/-- The routine `__unguarded_partition_pivot(first, last)`. -/
def unguardedPartitionPivot (a : List Course) (first last : Nat) : List Course × Nat :=
  let mid := first + (last - first) / 2
  let a := moveMedianToFirst a first (first + 1) mid (last - 1)
  unguardedPartition a.length a (first + 1) last first

/-- The routine `__push_heap(first, holeIndex, topIndex, value)`. -/
def pushHeap : Nat → List Course → Nat → Nat → Nat → Course → List Course
  | 0, a, first, holeIndex, _, value => a.set (first + holeIndex) value
  | fuel + 1, a, first, holeIndex, topIndex, value =>
    let parent := (holeIndex - 1) / 2
    if holeIndex > topIndex ∧ Course.lt (elemAt a (first + parent)) value = true then
      pushHeap fuel (a.set (first + holeIndex) (elemAt a (first + parent))) first parent
        topIndex value
    else a.set (first + holeIndex) value

/-- The first loop of `__adjust_heap`: the range, the hole and the second
child afterwards. -/
def adjustHeapLoop : Nat → List Course → Nat → Nat → Nat → Nat → List Course × Nat × Nat
  | 0, a, _, holeIndex, secondChild, _ => (a, holeIndex, secondChild)
  | fuel + 1, a, first, holeIndex, secondChild, len =>
    if secondChild < (len - 1) / 2 then
      let secondChild := 2 * (secondChild + 1)
      let secondChild :=
        if Course.lt (elemAt a (first + secondChild)) (elemAt a (first + (secondChild - 1)))
        then secondChild - 1 else secondChild
      adjustHeapLoop fuel (a.set (first + holeIndex) (elemAt a (first + secondChild))) first
        secondChild secondChild len
    else (a, holeIndex, secondChild)

/-- The routine `__adjust_heap(first, holeIndex, len, value)`. -/
def adjustHeap (a : List Course) (first holeIndex len : Nat) (value : Course) :
    List Course :=
  match adjustHeapLoop len a first holeIndex holeIndex len with
  | (a, hole, secondChild) =>
    if len % 2 = 0 ∧ secondChild = (len - 2) / 2 then
      let secondChild := 2 * (secondChild + 1)
      pushHeap len (a.set (first + hole) (elemAt a (first + (secondChild - 1)))) first
        (secondChild - 1) holeIndex value
    else pushHeap len a first hole holeIndex value

/-- The routine `__pop_heap(first, last, result)`. -/
def popHeap (a : List Course) (first last result : Nat) : List Course :=
  adjustHeap (a.set result (elemAt a first)) first 0 (last - first) (elemAt a result)

/-- The loop of `__make_heap(first, last)`, from `parent` down to 0. -/
def makeHeapLoop (first len : Nat) : Nat → List Course → List Course
  | 0, a => adjustHeap a first 0 len (elemAt a first)
  | parent + 1, a =>
    makeHeapLoop first len parent
      (adjustHeap a first (parent + 1) len (elemAt a (first + (parent + 1))))

/-- The routine `__make_heap(first, last)`. -/
def makeHeap (a : List Course) (first last : Nat) : List Course :=
  if last - first < 2 then a else makeHeapLoop first (last - first) ((last - first - 2) / 2) a

/-- The routine `__sort_heap(first, last)`, for at most `fuel` turns. -/
def sortHeap : Nat → List Course → Nat → Nat → List Course
  | 0, a, _, _ => a
  | fuel + 1, a, first, last =>
    if last - first > 1 then sortHeap fuel (popHeap a first (last - 1) (last - 1)) first (last - 1)
    else a

/-- The call `__partial_sort(first, last, last)`: a heap sort of the range. -/
def partialSort (a : List Course) (first last : Nat) : List Course :=
  sortHeap a.length (makeHeap a first last) first last

/-- The routine `__introsort_loop(first, last, depth_limit)`, for at most
`fuel` partitions in a row. -/
def introsortLoop : Nat → List Course → Nat → Nat → Nat → List Course
  | 0, a, _, _, _ => a
  | fuel + 1, a, first, last, depthLimit =>
    if last - first > 16 then
      if depthLimit = 0 then partialSort a first last
      else
        match unguardedPartitionPivot a first last with
        | (a, cut) =>
          introsortLoop fuel (introsortLoop fuel a cut last (depthLimit - 1)) first cut
            (depthLimit - 1)
    else a

/-- The function `std::__lg(n)`: the position of the highest bit set in `n`. -/
def lg : Nat → Nat → Nat
  | 0, _ => 0
  | fuel + 1, n => if n < 2 then 0 else lg fuel (n / 2) + 1

/-- The routine `std::sort(begin, end)` with `operator<`, as the GNU C++
library implements it (`bits/stl_algo.h`, `bits/stl_heap.h`). -/
def stdSort (a : List Course) : List Course :=
  if a = [] then a
  else
    finalInsertionSort (introsortLoop a.length a 0 a.length (2 * lg a.length a.length)) 0
      a.length

/-- The place `__unguarded_linear_insert` gives to `x` in a range that is
listed from its last element to its first. -/
def insertFromBack (x : Course) : List Course → List Course
  | [] => [x]
  | y :: ys => if Course.lt x y then y :: insertFromBack x ys else x :: y :: ys

/-- One turn of the loop of `__insertion_sort` on the part of the range that is
already in order. -/
def insertionStep (p : List Course) (x : Course) : List Course :=
  if Course.lt x (p.headD Course.empty) then x :: p
  else (insertFromBack x p.reverse).reverse

/-- The first element of the part in order is not greater than any other. -/
def FirstLeast (p : List Course) : Prop :=
  ∀ y ∈ p, Course.lt y (p.headD Course.empty) = false

/-- A file of seventeen lines with the same course number. -/
def seventeenSections : Str :=
  ("CS101,S01\n" ++
    "CS101,S02\n" ++
    "CS101,S03\n" ++
    "CS101,S04\n" ++
    "CS101,S05\n" ++
    "CS101,S06\n" ++
    "CS101,S07\n" ++
    "CS101,S08\n" ++
    "CS101,S09\n" ++
    "CS101,S10\n" ++
    "CS101,S11\n" ++
    "CS101,S12\n" ++
    "CS101,S13\n" ++
    "CS101,S14\n" ++
    "CS101,S15\n" ++
    "CS101,S16\n" ++
    "CS101,S17\n").toList

/-- The seventeen records of that file. -/
def seventeenCatalog : List Course :=
  [ ⟨"CS101".toList, "S01".toList, [], "CS101".toList⟩,
    ⟨"CS101".toList, "S02".toList, [], "CS101".toList⟩,
    ⟨"CS101".toList, "S03".toList, [], "CS101".toList⟩,
    ⟨"CS101".toList, "S04".toList, [], "CS101".toList⟩,
    ⟨"CS101".toList, "S05".toList, [], "CS101".toList⟩,
    ⟨"CS101".toList, "S06".toList, [], "CS101".toList⟩,
    ⟨"CS101".toList, "S07".toList, [], "CS101".toList⟩,
    ⟨"CS101".toList, "S08".toList, [], "CS101".toList⟩,
    ⟨"CS101".toList, "S09".toList, [], "CS101".toList⟩,
    ⟨"CS101".toList, "S10".toList, [], "CS101".toList⟩,
    ⟨"CS101".toList, "S11".toList, [], "CS101".toList⟩,
    ⟨"CS101".toList, "S12".toList, [], "CS101".toList⟩,
    ⟨"CS101".toList, "S13".toList, [], "CS101".toList⟩,
    ⟨"CS101".toList, "S14".toList, [], "CS101".toList⟩,
    ⟨"CS101".toList, "S15".toList, [], "CS101".toList⟩,
    ⟨"CS101".toList, "S16".toList, [], "CS101".toList⟩,
    ⟨"CS101".toList, "S17".toList, [], "CS101".toList⟩ ]

/-! ## Theorems -/

theorem splitOn_ne_nil (d : Char) (l : Str) : splitOn d l ≠ [] := by
  induction l with
  | nil => simp [splitOn]
  | cons c cs ih =>
    unfold splitOn
    split
    · simp
    · split <;> simp

theorem extract_some (d : Char) (l : Str) (r : Str) (h : (extract d l).2 = some r) :
    tokens d l = (extract d l).1 :: tokens d r ∧
    splitOn d l = (extract d l).1 :: splitOn d r := by
  induction l with
  | nil => simp [extract] at h
  | cons c cs ih =>
    by_cases hc : c = d
    · simp [extract, hc] at h
      simp [extract, tokens, splitOn, hc, h]
    · simp [extract, hc] at h
      obtain ⟨h1, h2⟩ := ih h
      simp [extract, tokens, splitOn, hc, h1, h2]

theorem extract_none (d : Char) (l : Str) (h : (extract d l).2 = none) :
    (extract d l).1 = l ∧
    tokens d l = (if l = [] then [] else [l]) ∧
    splitOn d l = [l] := by
  induction l with
  | nil => simp [extract, tokens, splitOn]
  | cons c cs ih =>
    by_cases hc : c = d
    · simp [extract, hc] at h
    · simp [extract, hc] at h
      obtain ⟨h1, h2, h3⟩ := ih h
      refine ⟨by simp [extract, hc, h1], ?_, by simp [splitOn, hc, h3]⟩
      by_cases hcs : cs = []
      · simp [tokens, hc, h2, hcs]
      · simp [tokens, hc, h2, hcs]

theorem getline_tokens_nil (d : Char) (s : IStream) (h : pendingTokens d s = []) :
    (getline s d).2 = none ∨ (getline s d).1.ok = false := by
  unfold pendingTokens at h
  unfold getline
  by_cases hg : s.good = true
  · simp only [hg, if_true] at h ⊢
    rcases hx : extract d s.buf with ⟨tok, _ | rest⟩
    · have h2 := extract_none d s.buf (by rw [hx])
      rw [hx] at h2
      right
      have h21 : tok = s.buf := h2.1
      by_cases hb : s.buf = []
      · simp [IStream.ok, h21, hb]
      · rw [h2.2.1] at h
        simp [hb] at h
    · have h2 := extract_some d s.buf rest (by rw [hx])
      rw [h2.1] at h
      simp at h
  · left
    simp [hg]

theorem getline_tokens_cons (d : Char) (s : IStream) (t : Str) (ts : List Str)
    (h : pendingTokens d s = t :: ts) :
    (getline s d).2 = some t ∧ (getline s d).1.ok = true ∧
      pendingTokens d (getline s d).1 = ts := by
  unfold pendingTokens at h
  unfold getline
  by_cases hg : s.good = true
  · simp only [hg, if_true] at h ⊢
    rcases hx : extract d s.buf with ⟨tok, _ | rest⟩
    · have h2 := extract_none d s.buf (by rw [hx])
      rw [hx] at h2
      rw [h2.2.1] at h
      by_cases hb : s.buf = []
      · simp [hb] at h
      · simp [hb] at h
        obtain ⟨h3, h4⟩ := h
        have h21 : tok = s.buf := h2.1
        subst h3 h4
        simp [IStream.ok, pendingTokens, IStream.good, hb, h21]
    · have h2 := extract_some d s.buf rest (by rw [hx])
      rw [hx] at h2
      rw [h2.1] at h
      simp at h
      obtain ⟨h3, h4⟩ := h
      subst h3 h4
      simp [IStream.ok, pendingTokens, IStream.good]
  · simp [hg] at h

theorem getline_lines (s : IStream) (hg : s.good = true) :
    ∃ t, (getline s '\n').2 = some t ∧
      pendingLines s = t :: pendingLines (getline s '\n').1 := by
  unfold pendingLines getline
  simp only [hg, if_true]
  rcases hx : extract '\n' s.buf with ⟨tok, _ | rest⟩
  · have h2 := extract_none '\n' s.buf (by rw [hx])
    rw [hx] at h2
    have h21 : tok = s.buf := h2.1
    refine ⟨tok, rfl, ?_⟩
    simp [h2.2.2, h21, IStream.good]
  · have h2 := extract_some '\n' s.buf rest (by rw [hx])
    rw [hx] at h2
    refine ⟨tok, rfl, ?_⟩
    simp [h2.2, IStream.good]

theorem prereqLoop_eq (nums : List Str) :
    ∀ (fuel : Nat) (s : IStream) (ps : List Str),
      (pendingTokens ',' s).length < fuel →
      prereqLoop fuel s nums ps = some (checkPrereqs nums (pendingTokens ',' s) ps) := by
  intro fuel
  induction fuel with
  | zero => intro s ps h; simp at h
  | succ n ih =>
    intro s ps h
    rcases hp : pendingTokens ',' s with _ | ⟨t, ts⟩
    · rcases getline_tokens_nil ',' s hp with h1 | h1
      · rcases hx : getline s ',' with ⟨s1, tok⟩
        rw [hx] at h1
        simp only at h1
        subst h1
        simp [prereqLoop, hx, checkPrereqs]
      · rcases hx : getline s ',' with ⟨s1, _ | tok⟩
        · simp [prereqLoop, hx, checkPrereqs]
        · rw [hx] at h1
          simp only at h1
          simp [prereqLoop, hx, checkPrereqs, h1]
    · obtain ⟨h1, h2, h3⟩ := getline_tokens_cons ',' s t ts hp
      rcases hx : getline s ',' with ⟨s1, tok⟩
      rw [hx] at h1 h2 h3
      simp only at h1 h2 h3
      subst h1
      rw [hp] at h
      simp only [List.length_cons] at h
      have hlt : (pendingTokens ',' s1).length < n := by rw [h3]; omega
      simp only [prereqLoop, hx, h2, if_true, checkPrereqs]
      by_cases hm : t ∈ nums
      · simp only [hm, if_true]
        rw [ih s1 (ps ++ [t]) hlt, h3]
      · simp [hm]

theorem checkPrereqs_eq (nums : List Str) :
    ∀ (ts ps : List Str),
      checkPrereqs nums ts ps = if ∀ t ∈ ts, t ∈ nums then some (ps ++ ts) else none := by
  intro ts
  induction ts with
  | nil => intro ps; simp [checkPrereqs]
  | cons t ts ih =>
    intro ps
    by_cases hm : t ∈ nums
    · simp [checkPrereqs, hm, ih]
    · simp [checkPrereqs, hm]

theorem tokens_length_le (d : Char) (l : Str) : (tokens d l).length ≤ l.length := by
  induction l with
  | nil => simp [tokens]
  | cons c cs ih =>
    unfold tokens
    split
    · simp; omega
    · split
      · simp
      · rename_i h t heq
        rw [heq] at ih
        simp at ih ⊢
        omega

theorem splitOn_length_le (d : Char) (l : Str) : (splitOn d l).length ≤ l.length + 1 := by
  induction l with
  | nil => simp [splitOn]
  | cons c cs ih =>
    unfold splitOn
    split
    · simp; omega
    · split
      · simp
      · rename_i h t heq
        rw [heq] at ih
        simp at ih ⊢
        omega

theorem pendingTokens_open (d : Char) (l : Str) :
    pendingTokens d (IStream.open l) = tokens d l := by
  simp [pendingTokens, IStream.open, IStream.good]

theorem processLine_eq (nums : List Str) (l : Str) :
    processLine nums l = some (lineResult nums l) := by
  by_cases hl : l = []
  · simp [processLine, lineResult, hl]
  · have hp := pendingTokens_open ',' l
    unfold processLine lineResult fields
    simp only [hl, if_false, ne_eq, not_false_eq_true, if_true]
    rcases hf : tokens ',' l with _ | ⟨n, _ | ⟨m, ps⟩⟩
    · rw [hf] at hp
      rcases getline_tokens_nil ',' _ hp with h1 | h1
      · rcases hx : getline (IStream.open l) ',' with ⟨s1, tok⟩
        rw [hx] at h1
        simp only at h1
        subst h1
        simp
      · rcases hx : getline (IStream.open l) ',' with ⟨s1, _ | tok⟩
        · simp
        · rw [hx] at h1
          simp only at h1
          simp [h1]
    · rw [hf] at hp
      obtain ⟨h1, h2, h3⟩ := getline_tokens_cons ',' _ n [] hp
      rcases hx : getline (IStream.open l) ',' with ⟨s1, tok⟩
      rw [hx] at h1 h2 h3
      simp only at h1 h2 h3
      subst h1
      simp only [h2, if_true]
      rcases getline_tokens_nil ',' _ h3 with h4 | h4
      · rcases hy : getline s1 ',' with ⟨s2, tok2⟩
        rw [hy] at h4
        simp only at h4
        subst h4
        simp
      · rcases hy : getline s1 ',' with ⟨s2, _ | tok2⟩
        · simp
        · rw [hy] at h4
          simp only at h4
          simp [h4]
    · rw [hf] at hp
      obtain ⟨h1, h2, h3⟩ := getline_tokens_cons ',' _ n (m :: ps) hp
      rcases hx : getline (IStream.open l) ',' with ⟨s1, tok⟩
      rw [hx] at h1 h2 h3
      simp only at h1 h2 h3
      subst h1
      obtain ⟨h4, h5, h6⟩ := getline_tokens_cons ',' _ m ps h3
      rcases hy : getline s1 ',' with ⟨s2, tok2⟩
      rw [hy] at h4 h5 h6
      simp only at h4 h5 h6
      subst h4
      have hlen : (pendingTokens ',' s2).length < l.length + 2 := by
        have := tokens_length_le ',' l
        rw [hf] at this
        rw [h6]
        simp at this
        omega
      simp only [h2, if_true]
      rw [hy]
      simp only [h5, if_true]
      rw [prereqLoop_eq nums _ s2 _ hlen, h6, checkPrereqs_eq]
      by_cases hall : ∀ t ∈ ps, t ∈ nums
      · rw [if_pos hall, if_pos hall]
        simp [Course.empty]
      · rw [if_neg hall, if_neg hall]

theorem pass2_eq (nums : List Str) :
    ∀ (fuel : Nat) (s : IStream) (cd : Str) (cl : List Course),
      (pendingLines s).length < fuel →
      pass2 fuel s cd nums cl = some (scanLines nums (pendingLines s) cl) := by
  intro fuel
  induction fuel with
  | zero => intro s cd cl h; simp at h
  | succ n ih =>
    intro s cd cl h
    by_cases hg : s.good = true
    · obtain ⟨t, h1, h2⟩ := getline_lines s hg
      rw [h2] at h
      simp only [List.length_cons] at h
      have hlt : (pendingLines (getline s '\n').1).length < n := by omega
      rw [h2]
      simp only [pass2, hg, if_true, h1, Option.getD_some, processLine_eq, scanLines]
      rcases lineResult nums t with st | c | _
      · simp
      · simp only [ih _ _ _ hlt]
      · simp only [ih _ _ _ hlt]
    · have hg2 : s.good = false := by simpa using hg
      simp [pass2, hg2, pendingLines, scanLines]

theorem pass1_eq :
    ∀ (fuel : Nat) (s : IStream) (cd : Str) (nums : List Str),
      (pendingLines s).length < fuel →
      ∃ cd2, pass1 fuel s cd nums = some (cd2, collectNums (pendingLines s) nums) := by
  intro fuel
  induction fuel with
  | zero => intro s cd nums h; simp at h
  | succ n ih =>
    intro s cd nums h
    by_cases hg : s.good = true
    · obtain ⟨t, h1, h2⟩ := getline_lines s hg
      rw [h2] at h
      simp only [List.length_cons] at h
      have hlt : (pendingLines (getline s '\n').1).length < n := by omega
      rw [h2]
      simp only [pass1, hg, if_true, h1, Option.getD_some, collectNums]
      by_cases ht : t = []
      · simp only [ht, ne_eq, not_true_eq_false, if_false, if_true]
        exact ih _ _ _ hlt
      · simp only [ht, ne_eq, not_false_eq_true, if_true, if_false]
        have hp := pendingTokens_open ',' t
        unfold fields
        rcases hf : tokens ',' t with _ | ⟨a, as⟩
        · rw [hf] at hp
          rcases getline_tokens_nil ',' _ hp with h3 | h3
          · rcases hx : getline (IStream.open t) ',' with ⟨s1, tok⟩
            rw [hx] at h3
            simp only at h3
            subst h3
            exact ih _ _ _ hlt
          · rcases hx : getline (IStream.open t) ',' with ⟨s1, _ | tok⟩
            · exact ih _ _ _ hlt
            · rw [hx] at h3
              simp only at h3
              simp only [h3]
              exact ih _ _ _ hlt
        · rw [hf] at hp
          obtain ⟨h3, h4, _⟩ := getline_tokens_cons ',' _ a as hp
          rcases hx : getline (IStream.open t) ',' with ⟨s1, tok⟩
          rw [hx] at h3 h4
          simp only at h3 h4
          subst h3
          simp only [h4, if_true]
          exact ih _ _ _ hlt
    · have hg2 : s.good = false := by simpa using hg
      exact ⟨cd, by simp [pass1, hg2, pendingLines, collectNums]⟩

theorem pendingLines_open (content : Str) :
    pendingLines (IStream.open content) = fileLines content := by
  simp [pendingLines, IStream.open, IStream.good, fileLines]

/-- The function `processFile` always returns, and what it returns is the scan
of the lines of the file against the numbers collected from them. -/
theorem processFile_eq (content : Str) (cl : List Course) :
    processFile content cl =
      some (scanLines (collectNums (fileLines content) []) (fileLines content) cl) := by
  have hlen : (pendingLines (IStream.open content)).length < content.length + 2 := by
    rw [pendingLines_open]
    have := splitOn_length_le '\n' content
    unfold fileLines
    omega
  obtain ⟨cd2, h1⟩ := pass1_eq _ (IStream.open content) [] [] hlen
  unfold processFile
  rw [h1]
  simp only
  rw [pass2_eq _ _ _ cd2 cl hlen, pendingLines_open]

/-! ### `displayCourse` -/

theorem intMax_eq : intMax = 2147483647 := by decide

theorem displayLoop_eq (ps : List Str) :
    ∀ (n i : Nat) (out : Str), i + n ≤ ps.length → i + n ≤ intMax →
      displayLoop ps n i out =
        some (out ++ (((ps.drop i).take n).map (fun p => p ++ ", ".toList)).flatten) := by
  intro n
  induction n with
  | zero => intro i out _ _; simp [displayLoop]
  | succ n ih =>
    intro i out h hmax
    have hi : i < ps.length := by omega
    have hi2 : i < intMax := by omega
    have hd : ps.drop i = ps.get ⟨i, hi⟩ :: ps.drop (i + 1) := by
      simp
    rw [displayLoop, List.get?_eq_get hi]
    simp only [hi2, if_true]
    rw [ih (i + 1) _ (by omega) (by omega), hd]
    simp only [List.take_succ_cons, List.map_cons, List.flatten_cons, List.append_assoc]

theorem intercalate_eq (sep : Str) :
    ∀ (ps : List Str) (h : ps ≠ []),
      sep.intercalate ps = ((ps.dropLast).map (fun p => p ++ sep)).flatten ++ ps.getLast h := by
  intro ps
  induction ps with
  | nil => intro h; exact absurd rfl h
  | cons p qs ih =>
    intro h
    cases qs with
    | nil => simp [List.intercalate]
    | cons q rs =>
      have := ih (by simp)
      simp only [List.intercalate] at this ⊢
      simp [List.intersperse, this, List.append_assoc]

theorem displayCourse_eq (c : Course) (hmax : c.prerequisites.length ≤ 2 ^ 31) :
    displayCourse c = some (displayText c) := by
  unfold displayCourse displayText
  by_cases hp : c.prerequisites = []
  · simp [hp]
  · have hlen : c.prerequisites.length ≠ 0 := by
      simpa [List.length_eq_zero] using hp
    have hpos : 0 < c.prerequisites.length := Nat.pos_of_ne_zero hlen
    have hsub : usub64 c.prerequisites.length 1 = c.prerequisites.length - 1 := by
      unfold usub64
      rw [if_pos (by omega)]
    have hlt : c.prerequisites.length - 1 < c.prerequisites.length := by omega
    have hmax2 : 0 + (c.prerequisites.length - 1) ≤ intMax := by
      rw [intMax_eq]
      norm_num at hmax
      omega
    simp only [hlen, ne_eq, not_false_eq_true, if_true, hp, if_false, hsub]
    rw [displayLoop_eq _ _ _ _ (by omega) hmax2, List.get?_eq_get hlt]
    simp only [List.drop_zero]
    rw [intercalate_eq _ _ hp, List.dropLast_eq_take, List.getLast_eq_getElem]
    simp [List.append_assoc]

theorem strLt_asymm : ∀ (a b : Str), strLt a b = true → strLt b a = false := by
  intro a
  induction a with
  | nil => intro b _; cases b <;> simp [strLt]
  | cons x as ih =>
    intro b h
    cases b with
    | nil => simp [strLt] at h
    | cons y bs =>
      simp only [strLt] at h ⊢
      rcases lt_trichotomy x y with hxy | hxy | hxy
      · simp [hxy, lt_asymm hxy]
      · subst hxy
        simp [lt_irrefl] at h ⊢
        exact ih bs h
      · simp [hxy, lt_asymm hxy] at h

theorem strLt_connected : ∀ (a b : Str), strLt a b = false → strLt b a = false → a = b := by
  intro a
  induction a with
  | nil => intro b h _; cases b with
    | nil => rfl
    | cons y bs => simp [strLt] at h
  | cons x as ih =>
    intro b h1 h2
    cases b with
    | nil => simp [strLt] at h2
    | cons y bs =>
      simp only [strLt] at h1 h2
      rcases lt_trichotomy x y with hxy | hxy | hxy
      · simp [hxy] at h1
      · subst hxy
        simp [lt_irrefl] at h1 h2
        rw [ih bs h1 h2]
      · simp [hxy] at h2

theorem strLe_trans : ∀ (a b c : Str), strLt b a = false → strLt c b = false → strLt c a = false := by
  intro a
  induction a with
  | nil => intro b c _ _; cases c <;> simp [strLt]
  | cons x as ih =>
    intro b c h1 h2
    cases b with
    | nil => simp [strLt] at h1
    | cons y bs =>
      cases c with
      | nil => simp [strLt] at h2
      | cons z cs =>
        simp only [strLt] at h1 h2 ⊢
        rcases lt_trichotomy y x with hyx | hyx | hyx
        · simp [hyx] at h1
        · subst hyx
          simp only [lt_irrefl, if_false] at h1
          rcases lt_trichotomy z y with hzy | hzy | hzy
          · simp [hzy] at h2
          · subst hzy
            simp only [lt_irrefl, if_false] at h2 ⊢
            exact ih bs cs h1 h2
          · simp [hzy, lt_asymm hzy]
        · rcases lt_trichotomy z y with hzy | hzy | hzy
          · simp [hzy] at h2
          · subst hzy
            simp [hyx, lt_asymm hyx]
          · have := lt_trans hyx hzy
            simp [this, lt_asymm this]
theorem insertionSortCourses_contract : SortContract insertionSortCourses := by
  intro l
  haveI : IsTotal Course (fun a b => Course.lt b a = false) :=
    ⟨fun a b => by
      unfold Course.lt
      cases h : strLt b.key a.key
      · exact Or.inl rfl
      · exact Or.inr (strLt_asymm _ _ h)⟩
  haveI : IsTrans Course (fun a b => Course.lt b a = false) :=
    ⟨fun a b c h1 h2 => strLe_trans a.key b.key c.key h1 h2⟩
  exact ⟨List.perm_insertionSort _ l, List.sorted_insertionSort _ l⟩

/-! ### The scan of the lines -/

theorem tokens_ne_nil (d : Char) (l : Str) (h : l ≠ []) : tokens d l ≠ [] := by
  cases l with
  | nil => exact absurd rfl h
  | cons c cs =>
    unfold tokens
    split
    · simp
    · split <;> simp

theorem lineResult_nil (nums : List Str) : lineResult nums [] = .skip := by
  simp [lineResult]

theorem lineResult_short (nums : List Str) (l : Str) (h : l ≠ [])
    (hlen : (fields l).length < 2) : lineResult nums l = .abort .missingNumberOrName := by
  unfold lineResult
  rw [if_neg h]
  have hne := tokens_ne_nil ',' l h
  unfold fields at hlen ⊢
  rcases hf : tokens ',' l with _ | ⟨n, _ | ⟨m, ps⟩⟩
  · exact absurd hf hne
  · rfl
  · rw [hf] at hlen
    simp only [List.length_cons] at hlen
    omega

theorem lineResult_unknown (nums : List Str) (l : Str)
    (hlen : 2 ≤ (fields l).length) (hex : ¬ ∀ p ∈ (fields l).drop 2, p ∈ nums) :
    lineResult nums l = .abort .invalidPrerequisite := by
  have h : l ≠ [] := by
    intro h0
    subst h0
    simp [fields, tokens] at hlen
  unfold lineResult
  rw [if_neg h]
  unfold fields at hlen hex ⊢
  rcases hf : tokens ',' l with _ | ⟨n, _ | ⟨m, ps⟩⟩
  · rw [hf] at hlen
    simp at hlen
  · rw [hf] at hlen
    simp at hlen
  · rw [hf] at hex
    simp only [List.drop_succ_cons, List.drop_zero] at hex
    simp only
    rw [if_neg hex]

theorem lineResult_good (nums : List Str) (l : Str)
    (hlen : 2 ≤ (fields l).length) (hall : ∀ p ∈ (fields l).drop 2, p ∈ nums) :
    lineResult nums l = .push (recordOf l) := by
  have h : l ≠ [] := by
    intro h0
    subst h0
    simp [fields, tokens] at hlen
  unfold lineResult recordOf
  rw [if_neg h]
  unfold fields at hlen hall ⊢
  rcases hf : tokens ',' l with _ | ⟨n, _ | ⟨m, ps⟩⟩
  · rw [hf] at hlen
    simp at hlen
  · rw [hf] at hlen
    simp at hlen
  · rw [hf] at hall
    simp only [List.drop_succ_cons, List.drop_zero] at hall
    simp only
    rw [if_pos hall]
    simp

theorem lineResult_accepted (nums : List Str) (l : Str) (hne : l ≠ [])
    (h : LineAccepted nums l) : lineResult nums l = .push (recordOf l) := by
  rcases h with h | ⟨h1, h2⟩
  · exact absurd h hne
  · exact lineResult_good nums l h1 h2

theorem lineResult_rejected (nums : List Str) (l : Str) (h : ¬ LineAccepted nums l) :
    l ≠ [] ∧
    (((fields l).length < 2 ∧ lineResult nums l = .abort .missingNumberOrName) ∨
     (2 ≤ (fields l).length ∧ (∃ p ∈ (fields l).drop 2, p ∉ nums) ∧
        lineResult nums l = .abort .invalidPrerequisite)) := by
  have hne : l ≠ [] := fun h0 => h (Or.inl h0)
  refine ⟨hne, ?_⟩
  by_cases hlen : 2 ≤ (fields l).length
  · right
    have hex : ¬ ∀ p ∈ (fields l).drop 2, p ∈ nums := fun hall => h (Or.inr ⟨hlen, hall⟩)
    refine ⟨hlen, ?_, lineResult_unknown nums l hlen hex⟩
    by_contra hcon
    apply hex
    intro p hp
    by_contra hpn
    exact hcon ⟨p, hp, hpn⟩
  · left
    exact ⟨by omega, lineResult_short nums l hne (by omega)⟩

theorem scanLines_accepted (nums : List Str) :
    ∀ (ls : List Str) (cl : List Course), (∀ l ∈ ls, LineAccepted nums l) →
      scanLines nums ls cl =
        (.coursesLoaded, cl ++ (ls.filter (fun l => l ≠ [])).map recordOf) := by
  intro ls
  induction ls with
  | nil => intro cl _; simp [scanLines]
  | cons l ls ih =>
    intro cl h
    have hl := h l (List.mem_cons_self _ _)
    have hls : ∀ x ∈ ls, LineAccepted nums x := fun x hx => h x (List.mem_cons_of_mem _ hx)
    by_cases hne : l = []
    · subst hne
      simp [scanLines, lineResult_nil, ih cl hls]
    · simp [scanLines, lineResult_accepted nums l hne hl, ih _ hls, hne]

theorem scanLines_rejected (nums : List Str) :
    ∀ (pre : List Str) (l : Str) (post : List Str) (cl : List Course) (st : LoadStatus),
      (∀ x ∈ pre, LineAccepted nums x) → lineResult nums l = .abort st →
      scanLines nums (pre ++ l :: post) cl =
        (st, cl ++ (pre.filter (fun x => x ≠ [])).map recordOf) := by
  intro pre
  induction pre with
  | nil => intro l post cl st _ h; simp [scanLines, h]
  | cons x pre ih =>
    intro l post cl st h hl
    have hx := h x (List.mem_cons_self _ _)
    have hpre : ∀ y ∈ pre, LineAccepted nums y := fun y hy => h y (List.mem_cons_of_mem _ hy)
    by_cases hne : x = []
    · subst hne
      simp [scanLines, lineResult_nil, ih l post cl st hpre hl]
    · simp [scanLines, lineResult_accepted nums x hne hx, ih l post _ st hpre hl, hne]

/-- Every list of lines is accepted throughout, or splits at its first rejected
line. -/
theorem lines_split (nums : List Str) :
    ∀ (ls : List Str), (∀ l ∈ ls, LineAccepted nums l) ∨
      ∃ pre l post, ls = pre ++ l :: post ∧ (∀ x ∈ pre, LineAccepted nums x) ∧
        ¬ LineAccepted nums l := by
  intro ls
  induction ls with
  | nil => left; intro l hl; simp at hl
  | cons x ls ih =>
    by_cases hx : LineAccepted nums x
    · rcases ih with h | ⟨pre, l, post, h1, h2, h3⟩
      · left
        intro l hl
        rcases List.mem_cons.mp hl with h0 | h0
        · rw [h0]; exact hx
        · exact h l h0
      · right
        refine ⟨x :: pre, l, post, by rw [h1]; rfl, ?_, h3⟩
        intro y hy
        rcases List.mem_cons.mp hy with h0 | h0
        · rw [h0]; exact hx
        · exact h2 y h0
    · right
      exact ⟨[], x, ls, rfl, by intro y hy; simp at hy, hx⟩

theorem mem_collectNums :
    ∀ (ls : List Str) (nums : List Str) (p : Str),
      p ∈ collectNums ls nums ↔
        p ∈ nums ∨ ∃ l ∈ ls, l ≠ [] ∧ (fields l).head? = some p := by
  intro ls
  induction ls with
  | nil => intro nums p; simp [collectNums]
  | cons l ls ih =>
    intro nums p
    rw [collectNums, ih]
    by_cases hl : l = []
    · subst hl
      simp
    · rw [if_neg hl]
      rcases hf : fields l with _ | ⟨t, ts⟩
      · simp [hl, hf]
      · simp only [List.mem_insert_iff, List.mem_cons, exists_eq_or_imp, hf, List.head?_cons,
          Option.some.injEq, ne_eq, hl, not_false_eq_true, true_and]
        constructor
        · rintro ((h | h) | h)
          · exact Or.inr (Or.inl h.symm)
          · exact Or.inl h
          · exact Or.inr (Or.inr h)
        · rintro (h | h | h)
          · exact Or.inl (Or.inr h)
          · exact Or.inl (Or.inl h.symm)
          · exact Or.inr h

theorem mem_courseNumbers (content : Str) (p : Str) :
    p ∈ collectNums (fileLines content) [] ↔ p ∈ courseNumbers content := by
  rw [mem_collectNums]
  unfold courseNumbers nonEmptyLines
  simp only [List.not_mem_nil, false_or, List.mem_filterMap, List.mem_filter,
    decide_eq_true_eq, ne_eq]
  constructor
  · rintro ⟨l, h1, h2, h3⟩
    exact ⟨l, ⟨h1, h2⟩, h3⟩
  · rintro ⟨l, ⟨h1, h2⟩, h3⟩
    exact ⟨l, h1, h2, h3⟩

theorem lineAccepted_congr (nums nums2 : List Str) (h : ∀ p, p ∈ nums ↔ p ∈ nums2)
    (l : Str) : LineAccepted nums l ↔ LineAccepted nums2 l := by
  unfold LineAccepted
  constructor
  · rintro (h0 | ⟨h1, h2⟩)
    · exact Or.inl h0
    · exact Or.inr ⟨h1, fun p hp => (h p).mp (h2 p hp)⟩
  · rintro (h0 | ⟨h1, h2⟩)
    · exact Or.inl h0
    · exact Or.inr ⟨h1, fun p hp => (h p).mpr (h2 p hp)⟩

theorem tokens_eq_splitOn (d : Char) (l : Str) :
    tokens d l =
      if (splitOn d l).getLast? = some [] then (splitOn d l).dropLast else splitOn d l := by
  induction l with
  | nil => simp [tokens, splitOn]
  | cons c cs ih =>
    rcases hs : splitOn d cs with _ | ⟨h, t⟩
    · exact absurd hs (splitOn_ne_nil d cs)
    · rw [hs] at ih
      by_cases hc : c = d
      · simp only [tokens, splitOn, hc, if_true, hs, ih, List.getLast?_cons_cons]
        split_ifs <;> simp
      · simp only [tokens, splitOn, hc, if_false, hs, ih]
        cases t with
        | nil =>
          by_cases hh : h = []
          · simp [hh]
          · simp [hh]
        | cons t1 t2 =>
          simp only [List.getLast?_cons_cons]
          split_ifs <;> simp

theorem tokens_no_delim (d : Char) :
    ∀ (l : Str), l ≠ [] → d ∉ l → tokens d l = [l] := by
  intro l
  induction l with
  | nil => intro h _; exact absurd rfl h
  | cons c cs ih =>
    intro _ hd
    have hc : ¬ c = d := fun h => hd (by simp [h])
    have hcs : d ∉ cs := fun h => hd (List.mem_cons_of_mem _ h)
    by_cases hnil : cs = []
    · subst hnil
      simp [tokens, hc]
    · simp [tokens, hc, ih hnil hcs]

theorem mem_nonEmptyLines (content : Str) (l : Str) :
    l ∈ nonEmptyLines content ↔ l ∈ fileLines content ∧ l ≠ [] := by
  simp [nonEmptyLines]

theorem lineAccepted_numbers (content : Str) (l : Str) :
    LineAccepted (collectNums (fileLines content) []) l ↔
      LineAccepted (courseNumbers content) l :=
  lineAccepted_congr _ _ (mem_courseNumbers content) l

/-- The two ways `processFile` ends: every line is accepted and the records of
the non-empty lines are appended, or the list of lines splits at its first
rejected line and the records of the lines before it are appended. -/
theorem processFile_cases (content : Str) (cl : List Course) :
    ((∀ l ∈ fileLines content, LineAccepted (courseNumbers content) l) ∧
      processFile content cl =
        some (.coursesLoaded, cl ++ (nonEmptyLines content).map recordOf)) ∨
    (∃ pre l post st, fileLines content = pre ++ l :: post ∧
      (∀ x ∈ pre, LineAccepted (courseNumbers content) x) ∧
      ¬ LineAccepted (courseNumbers content) l ∧ l ≠ [] ∧
      (((fields l).length < 2 ∧ st = .missingNumberOrName) ∨
        (2 ≤ (fields l).length ∧ (∃ p ∈ (fields l).drop 2, p ∉ courseNumbers content) ∧
          st = .invalidPrerequisite)) ∧
      processFile content cl =
        some (st, cl ++ (pre.filter (fun x => x ≠ [])).map recordOf)) := by
  rw [processFile_eq]
  rcases lines_split (collectNums (fileLines content) []) (fileLines content) with
    h | ⟨pre, l, post, h1, h2, h3⟩
  · left
    refine ⟨fun l hl => (lineAccepted_numbers content l).mp (h l hl), ?_⟩
    rw [scanLines_accepted _ _ _ h]
    rfl
  · right
    have hpre : ∀ x ∈ pre, LineAccepted (courseNumbers content) x :=
      fun x hx => (lineAccepted_numbers content x).mp (h2 x hx)
    have hl : ¬ LineAccepted (courseNumbers content) l :=
      fun h => h3 ((lineAccepted_numbers content l).mpr h)
    obtain ⟨hne, hcase⟩ := lineResult_rejected _ l h3
    rcases hcase with ⟨hlen, hres⟩ | ⟨hlen, ⟨p, hp, hpn⟩, hres⟩
    · refine ⟨pre, l, post, .missingNumberOrName, h1, hpre, hl, hne, Or.inl ⟨hlen, rfl⟩, ?_⟩
      have hscan := scanLines_rejected _ pre l post cl _ h2 hres
      rw [← h1] at hscan
      rw [hscan]
    · refine ⟨pre, l, post, .invalidPrerequisite, h1, hpre, hl, hne,
        Or.inr ⟨hlen, ⟨p, hp, fun h => hpn ((mem_courseNumbers content p).mpr h)⟩, rfl⟩, ?_⟩
      have hscan := scanLines_rejected _ pre l post cl _ h2 hres
      rw [← h1] at hscan
      rw [hscan]

/-- A rejected line after accepted lines decides the outcome. -/
theorem processFile_rejected (content : Str) (cl : List Course) (pre : List Str) (l : Str)
    (post : List Str) (st : LoadStatus) (hsplit : fileLines content = pre ++ l :: post)
    (hpre : ∀ x ∈ pre, LineAccepted (courseNumbers content) x)
    (hres : lineResult (collectNums (fileLines content) []) l = .abort st) :
    processFile content cl =
      some (st, cl ++ (pre.filter (fun x => x ≠ [])).map recordOf) := by
  have hscan := scanLines_rejected _ pre l post cl st
    (fun x hx => (lineAccepted_numbers content x).mpr (hpre x hx)) hres
  rw [← hsplit] at hscan
  rw [processFile_eq, hscan]

/-! ### The properties of the specification -/

theorem recordOf_fields (l : Str) (h : 2 ≤ (fields l).length) :
    fields l =
      (recordOf l).courseNumber :: (recordOf l).courseName :: (recordOf l).prerequisites := by
  unfold recordOf
  rcases hf : fields l with _ | ⟨n, _ | ⟨m, ps⟩⟩
  · rw [hf] at h; simp at h
  · rw [hf] at h; simp at h
  · simp

/-- C1, as stated, fails on a line that ends in a comma: the file with the one
line `CS101,Intro,` loads, its record has no prerequisite, while the third
comma-separated field of the line is the empty string. -/
theorem load_records_counterexample :
    processFile "CS101,Intro,".toList [] =
        some (.coursesLoaded, [⟨"CS101".toList, "Intro".toList, [], "CS101".toList⟩]) ∧
      (nonEmptyLines "CS101,Intro,".toList).map specRecordOf =
        [⟨"CS101".toList, "Intro".toList, [[]], "CS101".toList⟩] := by
  decide

/-- C1, amended: when `processFile` succeeds on an empty store, the collection
holds one record per non-empty line, in line order; the fields of the line are
the number, the name and the prerequisites of its record, in this order, and
the key is the number.  The fields are the pieces of the line between commas,
without the last piece when that one is empty. -/
theorem load_records (content : Str) (cl : List Course)
    (h : processFile content [] = some (.coursesLoaded, cl)) :
    cl = (nonEmptyLines content).map recordOf ∧
      ∀ l ∈ nonEmptyLines content,
        fields l =
          (recordOf l).courseNumber :: (recordOf l).courseName ::
            (recordOf l).prerequisites ∧
        (recordOf l).key = (recordOf l).courseNumber ∧
        fields l =
          if (splitOn ',' l).getLast? = some [] then (splitOn ',' l).dropLast
          else splitOn ',' l := by
  rcases processFile_cases content [] with ⟨hacc, hres⟩ | ⟨pre, l, post, st, _, _, _, _, hst, hres⟩
  · rw [hres] at h
    simp only [List.nil_append, Option.some.injEq, Prod.mk.injEq, true_and] at h
    refine ⟨h.symm, ?_⟩
    intro l hl
    obtain ⟨hmem, hne⟩ := (mem_nonEmptyLines content l).mp hl
    rcases hacc l hmem with h0 | ⟨hlen, _⟩
    · exact absurd h0 hne
    · exact ⟨recordOf_fields l hlen, rfl, tokens_eq_splitOn ',' l⟩
  · rw [hres] at h
    rcases hst with ⟨_, hst⟩ | ⟨_, _, hst⟩ <;> subst hst <;> simp at h

theorem load_records_witness :
    processFile exampleFile [] = some (.coursesLoaded, exampleCatalog) ∧
      exampleCatalog = (nonEmptyLines exampleFile).map recordOf :=
  ⟨by decide, (load_records exampleFile exampleCatalog (by decide)).1⟩

/-- C2, as stated, fails in two ways.  The file with the one line `CS101` has
no prerequisite field at all, and `processFile` fails on it for want of a name.
In the file with the lines `,None` and `CS101,Intro,` the only third field is
the empty string, which is the number of the first line; the file loads, and the
record of its second line has no prerequisite. -/
theorem load_valid_counterexample :
    ((nonEmptyLines "CS101".toList).map (fun l => (splitOn ',' l).drop 2) = [[]] ∧
      processFile "CS101".toList [] = some (.missingNumberOrName, [])) ∧
    ((nonEmptyLines ",None\nCS101,Intro,".toList).map (fun l => (splitOn ',' l).drop 2) =
        [[], [[]]] ∧
      (nonEmptyLines ",None\nCS101,Intro,".toList).map (fun l => (splitOn ',' l).headD []) =
        [[], "CS101".toList] ∧
      processFile ",None\nCS101,Intro,".toList [] =
        some (.coursesLoaded,
          [⟨[], "None".toList, [], []⟩,
           ⟨"CS101".toList, "Intro".toList, [], "CS101".toList⟩])) := by
  decide

/-- C2, amended: when every non-empty line has at least two fields and every
third or later field of a line is the first field of some non-empty line,
`processFile` succeeds, and on an empty store the collection is the list of the
records of the non-empty lines, the prerequisites of each being the third and
later fields of its line in order.  The fields are those `getline` extracts. -/
theorem load_valid (content : Str)
    (hname : ∀ l ∈ nonEmptyLines content, 2 ≤ (fields l).length)
    (hknown : ∀ l ∈ nonEmptyLines content, ∀ p ∈ (fields l).drop 2,
      p ∈ courseNumbers content) :
    processFile content [] = some (.coursesLoaded, (nonEmptyLines content).map recordOf) ∧
      ∀ l ∈ nonEmptyLines content, (recordOf l).prerequisites = (fields l).drop 2 := by
  refine ⟨?_, fun l _ => rfl⟩
  rcases processFile_cases content [] with ⟨_, hres⟩ | ⟨pre, l, post, st, hsplit, _, hrej, hne, _, _⟩
  · simpa using hres
  · exfalso
    apply hrej
    have hl : l ∈ nonEmptyLines content := by
      rw [mem_nonEmptyLines, hsplit]
      exact ⟨by simp, hne⟩
    exact Or.inr ⟨hname l hl, hknown l hl⟩

theorem load_valid_witness :
    processFile exampleFile [] =
      some (.coursesLoaded, (nonEmptyLines exampleFile).map recordOf) :=
  (load_valid exampleFile (by decide) (by decide)).1

/-- A line with a number and a name that is rejected has an unknown
prerequisite; a line whose prerequisites are known and that is rejected has
fewer than two fields. -/
theorem lineResult_of_rejected (nums : List Str) (l : Str) (h : ¬ LineAccepted nums l) :
    (2 ≤ (fields l).length → lineResult nums l = .abort .invalidPrerequisite) ∧
    ((∀ p ∈ (fields l).drop 2, p ∈ nums) →
      lineResult nums l = .abort .missingNumberOrName) := by
  obtain ⟨_, hcase⟩ := lineResult_rejected nums l h
  rcases hcase with ⟨hlen, hres⟩ | ⟨hlen, ⟨p, hp, hpn⟩, hres⟩
  · exact ⟨fun h2 => by omega, fun _ => hres⟩
  · exact ⟨fun _ => hres, fun hall => absurd (hall p hp) hpn⟩

/-- C3, as stated, fails in two ways.  In the file with the lines `CS101` and
`CS201,Data Structures,CS999` the prerequisite `CS999` is no line's number, and
`processFile` fails for want of a name on the first line.  In the file with the
one line `CS101,Intro,` the third comma-separated field (the empty string) is no
line's number, and the file loads. -/
theorem unknown_prerequisite_counterexample :
    ((nonEmptyLines "CS101\nCS201,Data Structures,CS999".toList).map
        (fun l => (splitOn ',' l).drop 2) = [[], ["CS999".toList]] ∧
      (nonEmptyLines "CS101\nCS201,Data Structures,CS999".toList).map
        (fun l => (splitOn ',' l).headD []) = ["CS101".toList, "CS201".toList] ∧
      processFile "CS101\nCS201,Data Structures,CS999".toList [] =
        some (.missingNumberOrName, [])) ∧
    ((nonEmptyLines "CS101,Intro,".toList).map (fun l => (splitOn ',' l).drop 2) = [[[]]] ∧
      (nonEmptyLines "CS101,Intro,".toList).map (fun l => (splitOn ',' l).headD []) =
        ["CS101".toList] ∧
      processFile "CS101,Intro,".toList [] =
        some (.coursesLoaded, [⟨"CS101".toList, "Intro".toList, [], "CS101".toList⟩])) := by
  decide

/-- C3, amended: when a line of the file has a third or later field (as
`getline` extracts them) that is the first field of no non-empty line of the
file, `processFile` fails, whatever the store and wherever the line stands; it
fails with `Error: Invalid prerequisite.` when every non-empty line before that
line has at least two fields. -/
theorem unknown_prerequisite (content : Str) (cl : List Course) (pre : List Str) (l : Str)
    (post : List Str) (p : Str) (hsplit : fileLines content = pre ++ l :: post)
    (hp : p ∈ (fields l).drop 2) (hun : p ∉ courseNumbers content) :
    (∃ st cl2, processFile content cl = some (st, cl2) ∧ st.returned = false) ∧
    ((∀ x ∈ pre, x ≠ [] → 2 ≤ (fields x).length) →
      ∃ cl2, processFile content cl = some (.invalidPrerequisite, cl2)) := by
  have hlen : 2 ≤ (fields l).length := by
    by_contra hcon
    have : (fields l).drop 2 = [] := List.drop_eq_nil_of_le (by omega)
    rw [this] at hp
    simp at hp
  have hrej : ¬ LineAccepted (courseNumbers content) l := by
    rintro (h0 | ⟨_, hall⟩)
    · subst h0
      simp [fields, tokens] at hlen
    · exact hun (hall p hp)
  constructor
  · rcases processFile_cases content cl with
      ⟨hacc, _⟩ | ⟨pre2, l2, post2, st, _, _, _, _, hst, hres⟩
    · exact absurd (hacc l (by rw [hsplit]; simp)) hrej
    · refine ⟨st, _, hres, ?_⟩
      rcases hst with ⟨_, hst⟩ | ⟨_, _, hst⟩ <;> subst hst <;> rfl
  · intro hnames
    rcases lines_split (courseNumbers content) pre with hacc | ⟨pre2, l2, post2, h1, h2, h3⟩
    · have hrej2 : ¬ LineAccepted (collectNums (fileLines content) []) l :=
        fun h => hrej ((lineAccepted_numbers content l).mp h)
      exact ⟨_, processFile_rejected content cl pre l post _ hsplit hacc
        ((lineResult_of_rejected _ l hrej2).1 hlen)⟩
    · have hrej2 : ¬ LineAccepted (collectNums (fileLines content) []) l2 :=
        fun h => h3 ((lineAccepted_numbers content l2).mp h)
      have hne2 : l2 ≠ [] := fun h0 => h3 (Or.inl h0)
      have hlen2 := hnames l2 (by rw [h1]; simp) hne2
      have hsplit2 : fileLines content = pre2 ++ l2 :: (post2 ++ l :: post) := by
        rw [hsplit, h1]
        simp
      exact ⟨_, processFile_rejected content cl pre2 l2 _ _ hsplit2 h2
        ((lineResult_of_rejected _ l2 hrej2).1 hlen2)⟩

theorem unknown_prerequisite_witness :
    (∃ st cl2, processFile "CS101,Intro\nCS201,Data Structures,CS999\nCS301".toList [] =
        some (st, cl2) ∧ st.returned = false) ∧
      ∃ cl2, processFile "CS101,Intro\nCS201,Data Structures,CS999\nCS301".toList [] =
        some (.invalidPrerequisite, cl2) :=
  ⟨(unknown_prerequisite "CS101,Intro\nCS201,Data Structures,CS999\nCS301".toList []
      ["CS101,Intro".toList] "CS201,Data Structures,CS999".toList ["CS301".toList]
      "CS999".toList (by decide) (by decide) (by decide)).1,
   (unknown_prerequisite "CS101,Intro\nCS201,Data Structures,CS999\nCS301".toList []
      ["CS101,Intro".toList] "CS201,Data Structures,CS999".toList ["CS301".toList]
      "CS999".toList (by decide) (by decide) (by decide)).2 (by decide)⟩

/-- C4, as stated, fails when an earlier line has an unknown prerequisite: in
the file with the lines `CS201,Data Structures,CS999` and `CS101` the second line
has no comma, and `processFile` fails with `Error: Invalid prerequisite.` -/
theorem missing_name_counterexample :
    nonEmptyLines "CS201,Data Structures,CS999\nCS101".toList =
        ["CS201,Data Structures,CS999".toList, "CS101".toList] ∧
      processFile "CS201,Data Structures,CS999\nCS101".toList [] =
        some (.invalidPrerequisite, []) := by
  decide

/-- C4, amended: when the file has a non-empty line without a comma,
`processFile` fails, whatever the store; it fails with `Error: Course is missing
a course number or course name.` when every third or later field of the lines
before that line is the first field of some non-empty line of the file. -/
theorem missing_name (content : Str) (cl : List Course) (pre : List Str) (l : Str)
    (post : List Str) (hsplit : fileLines content = pre ++ l :: post)
    (hne : l ≠ []) (hcomma : ',' ∉ l) :
    (∃ st cl2, processFile content cl = some (st, cl2) ∧ st.returned = false) ∧
    ((∀ x ∈ pre, ∀ p ∈ (fields x).drop 2, p ∈ courseNumbers content) →
      ∃ cl2, processFile content cl = some (.missingNumberOrName, cl2)) := by
  have hf : fields l = [l] := tokens_no_delim ',' l hne hcomma
  have hrej : ¬ LineAccepted (courseNumbers content) l := by
    rintro (h0 | ⟨hlen, _⟩)
    · exact hne h0
    · rw [hf] at hlen
      simp at hlen
  constructor
  · rcases processFile_cases content cl with
      ⟨hacc, _⟩ | ⟨pre2, l2, post2, st, _, _, _, _, hst, hres⟩
    · exact absurd (hacc l (by rw [hsplit]; simp)) hrej
    · refine ⟨st, _, hres, ?_⟩
      rcases hst with ⟨_, hst⟩ | ⟨_, _, hst⟩ <;> subst hst <;> rfl
  · intro hknown
    rcases lines_split (courseNumbers content) pre with hacc | ⟨pre2, l2, post2, h1, h2, h3⟩
    · have hrej2 : ¬ LineAccepted (collectNums (fileLines content) []) l :=
        fun h => hrej ((lineAccepted_numbers content l).mp h)
      refine ⟨_, processFile_rejected content cl pre l post _ hsplit hacc
        ((lineResult_of_rejected _ l hrej2).2 ?_)⟩
      rw [hf]
      intro p hp
      simp at hp
    · have hrej2 : ¬ LineAccepted (collectNums (fileLines content) []) l2 :=
        fun h => h3 ((lineAccepted_numbers content l2).mp h)
      have hkn2 : ∀ p ∈ (fields l2).drop 2, p ∈ collectNums (fileLines content) [] :=
        fun p hp => (mem_courseNumbers content p).mpr (hknown l2 (by rw [h1]; simp) p hp)
      have hsplit2 : fileLines content = pre2 ++ l2 :: (post2 ++ l :: post) := by
        rw [hsplit, h1]
        simp
      exact ⟨_, processFile_rejected content cl pre2 l2 _ _ hsplit2 h2
        ((lineResult_of_rejected _ l2 hrej2).2 hkn2)⟩

theorem missing_name_witness :
    (∃ st cl2, processFile "CS101,Intro\nCS201\nCS301,Algorithms,CS999".toList [] =
        some (st, cl2) ∧ st.returned = false) ∧
      ∃ cl2, processFile "CS101,Intro\nCS201\nCS301,Algorithms,CS999".toList [] =
        some (.missingNumberOrName, cl2) :=
  ⟨(missing_name "CS101,Intro\nCS201\nCS301,Algorithms,CS999".toList []
      ["CS101,Intro".toList] "CS201".toList ["CS301,Algorithms,CS999".toList]
      (by decide) (by decide) (by decide)).1,
   (missing_name "CS101,Intro\nCS201\nCS301,Algorithms,CS999".toList []
      ["CS101,Intro".toList] "CS201".toList ["CS301,Algorithms,CS999".toList]
      (by decide) (by decide) (by decide)).2 (by decide)⟩

/-- C5, as stated, fails: a failed load keeps the records of the lines before
the one that made it fail.  After the lines `CS101,Intro` and `CS201` (no name),
and after the lines `CS101,Intro` and `CS201,Data Structures,CS999` (unknown
prerequisite), the store that was empty holds the record of `CS101`. -/
theorem failed_load_counterexample :
    processFile "CS101,Intro\nCS201".toList [] =
        some (.missingNumberOrName,
          [⟨"CS101".toList, "Intro".toList, [], "CS101".toList⟩]) ∧
      processFile "CS101,Intro\nCS201,Data Structures,CS999".toList [] =
        some (.invalidPrerequisite,
          [⟨"CS101".toList, "Intro".toList, [], "CS101".toList⟩]) := by
  decide

/-- C5, amended: after a failed `processFile` the collection is the collection
before it followed by the records of the non-empty lines that precede the first
rejected line of the file: no earlier record is lost or changed, and the records
parsed before the failure stay. -/
theorem failed_load (content : Str) (cl : List Course) (st : LoadStatus) (cl2 : List Course)
    (h : processFile content cl = some (st, cl2)) (hst : st.returned = false) :
    ∃ pre l post, fileLines content = pre ++ l :: post ∧
      (∀ x ∈ pre, LineAccepted (courseNumbers content) x) ∧
      ¬ LineAccepted (courseNumbers content) l ∧
      cl2 = cl ++ (pre.filter (fun x => x ≠ [])).map recordOf := by
  rcases processFile_cases content cl with
    ⟨_, hres⟩ | ⟨pre, l, post, st2, hsplit, hpre, hrej, _, _, hres⟩
  · rw [hres] at h
    simp only [Option.some.injEq, Prod.mk.injEq] at h
    rw [← h.1] at hst
    simp [LoadStatus.returned] at hst
  · rw [hres] at h
    simp only [Option.some.injEq, Prod.mk.injEq] at h
    exact ⟨pre, l, post, hsplit, hpre, hrej, h.2.symm⟩

theorem failed_load_witness :
    processFile "CS101,Intro\nCS201".toList [] =
        some (.missingNumberOrName,
          [⟨"CS101".toList, "Intro".toList, [], "CS101".toList⟩]) ∧
      ∃ pre l post, fileLines "CS101,Intro\nCS201".toList = pre ++ l :: post ∧
        (∀ x ∈ pre, LineAccepted (courseNumbers "CS101,Intro\nCS201".toList) x) ∧
        ¬ LineAccepted (courseNumbers "CS101,Intro\nCS201".toList) l ∧
        [(⟨"CS101".toList, "Intro".toList, [], "CS101".toList⟩ : Course)] =
          [] ++ (pre.filter (fun x => x ≠ [])).map recordOf :=
  ⟨by decide,
   failed_load "CS101,Intro\nCS201".toList [] .missingNumberOrName
     [⟨"CS101".toList, "Intro".toList, [], "CS101".toList⟩] (by decide) (by decide)⟩

theorem processFile_loaded (content : Str) (cl cl2 : List Course)
    (h : processFile content cl = some (.coursesLoaded, cl2)) :
    cl2 = cl ++ (nonEmptyLines content).map recordOf ∧
      ∀ prior, processFile content prior =
        some (.coursesLoaded, prior ++ (nonEmptyLines content).map recordOf) := by
  rcases processFile_cases content cl with
    ⟨hacc, hres⟩ | ⟨pre, l, post, st, _, _, _, _, hst, hres⟩
  · rw [hres] at h
    simp only [Option.some.injEq, Prod.mk.injEq, true_and] at h
    refine ⟨h.symm, fun prior => ?_⟩
    rcases processFile_cases content prior with
      ⟨_, hres2⟩ | ⟨pre, l, post, st, hsplit, _, hrej, _, _, _⟩
    · exact hres2
    · exact absurd (hacc l (by rw [hsplit]; simp)) hrej
  · rw [hres] at h
    rcases hst with ⟨_, hst⟩ | ⟨_, _, hst⟩ <;> subst hst <;> simp at h

/-- C6, as stated, fails: a load adds to the collection.  Loading the example
file into the store that already holds its three records leaves six records,
the three earlier ones first; the same load into the empty store leaves
three. -/
theorem load_replaces_counterexample :
    openFile (some exampleFile) exampleCatalog =
        some (true, "Courses loaded.\n".toList, exampleCatalog ++ exampleCatalog) ∧
      openFile (some exampleFile) [] =
        some (true, "Courses loaded.\n".toList, exampleCatalog) := by
  decide

/-- C6, amended: a successful load appends.  The collection afterwards is the
collection before it followed by the list parsed from the source (the records
of its non-empty lines, in order); the part added does not depend on the state
before, and the load succeeds from every state. -/
theorem load_appends (content : Str) (cl cl2 : List Course)
    (h : processFile content cl = some (.coursesLoaded, cl2)) :
    cl2 = cl ++ (nonEmptyLines content).map recordOf ∧
      ∀ prior, openFile (some content) prior =
        some (true, "Courses loaded.\n".toList,
          prior ++ (nonEmptyLines content).map recordOf) := by
  obtain ⟨h1, h2⟩ := processFile_loaded content cl cl2 h
  refine ⟨h1, fun prior => ?_⟩
  simp [openFile, h2 prior, LoadStatus.message]

theorem load_appends_witness :
    processFile exampleFile exampleCatalog =
        some (.coursesLoaded, exampleCatalog ++ exampleCatalog) ∧
      exampleCatalog ++ exampleCatalog =
        exampleCatalog ++ (nonEmptyLines exampleFile).map recordOf :=
  ⟨by decide,
   (load_appends exampleFile exampleCatalog (exampleCatalog ++ exampleCatalog)
     (by decide)).1⟩

theorem displayAll_eq :
    ∀ (cl : List Course), (∀ c ∈ cl, c.prerequisites.length ≤ 2 ^ 31) →
      displayAll cl = some ((cl.map displayText).flatten) := by
  intro cl
  induction cl with
  | nil => intro _; rfl
  | cons c cs ih =>
    intro h
    have hc := displayCourse_eq c (h c (List.mem_cons_self _ _))
    have hcs := ih (fun x hx => h x (List.mem_cons_of_mem _ hx))
    simp [displayAll, hc, hcs]

theorem printAll_eq (sort : List Course → List Course) (hsort : SortContract sort)
    (cl : List Course) (h : ∀ c ∈ cl, c.prerequisites.length ≤ 2 ^ 31) :
    printAll sort cl = (sort cl, some (((sort cl).map displayText).flatten)) := by
  show (sort cl, displayAll (sort cl)) = _
  rw [displayAll_eq (sort cl) (fun c hc => h c ((hsort cl).1.mem_iff.mp hc))]

theorem strLe_iff (a b : Str) (h : strLt b a = false) : strLt a b = true ∨ a = b := by
  cases hab : strLt a b
  · exact Or.inr (strLt_connected a b hab h)
  · exact Or.inl rfl

/-- C7: on the catalog loaded from a file into the empty store, the collection
`printAll` leaves (and displays, record after record: the text is the
concatenation of the records' texts when no record has more prerequisites than
an `int` can count) has as many records as the file has non-empty lines, is a
rearrangement of the loaded collection, and is in ascending order of number: of
two records the earlier one has the smaller number in the order of
`std::string`, or the same number. -/
theorem printAll_sorted (sort : List Course → List Course) (hsort : SortContract sort)
    (content : Str) (cl : List Course)
    (h : processFile content [] = some (.coursesLoaded, cl)) :
    (printAll sort cl).1 = sort cl ∧
      ((∀ c ∈ cl, c.prerequisites.length ≤ 2 ^ 31) →
        printAll sort cl = (sort cl, some (((sort cl).map displayText).flatten))) ∧
      (sort cl).length = (nonEmptyLines content).length ∧
      (sort cl).Perm cl ∧
      (∀ c ∈ cl, c.key = c.courseNumber) ∧
      (sort cl).Pairwise (fun a b =>
        strLt a.courseNumber b.courseNumber = true ∨ a.courseNumber = b.courseNumber) := by
  obtain ⟨hperm, hsorted⟩ := hsort cl
  have hcl : cl = (nonEmptyLines content).map recordOf := by
    simpa using (processFile_loaded content [] cl h).1
  have hkey : ∀ c ∈ cl, c.key = c.courseNumber := by
    intro c hc
    rw [hcl] at hc
    obtain ⟨l, _, hl⟩ := List.mem_map.mp hc
    rw [← hl]
    rfl
  refine ⟨rfl, printAll_eq sort hsort cl, ?_, hperm, hkey, ?_⟩
  · rw [hperm.length_eq, hcl, List.length_map]
  · refine List.Pairwise.imp_of_mem ?_ hsorted
    intro a b ha hb hab
    have ha2 := hkey a (hperm.mem_iff.mp ha)
    have hb2 := hkey b (hperm.mem_iff.mp hb)
    unfold Course.lt at hab
    rw [ha2, hb2] at hab
    exact strLe_iff _ _ hab

theorem printAll_sorted_witness :
    processFile "CS301,Algorithms\nCS101,Intro".toList [] =
        some (.coursesLoaded,
          [⟨"CS301".toList, "Algorithms".toList, [], "CS301".toList⟩,
           ⟨"CS101".toList, "Intro".toList, [], "CS101".toList⟩]) ∧
      printAll insertionSortCourses
          [⟨"CS301".toList, "Algorithms".toList, [], "CS301".toList⟩,
           ⟨"CS101".toList, "Intro".toList, [], "CS101".toList⟩] =
        ([⟨"CS101".toList, "Intro".toList, [], "CS101".toList⟩,
          ⟨"CS301".toList, "Algorithms".toList, [], "CS301".toList⟩],
         some "CS101: Intro\nCS301: Algorithms\n".toList) ∧
      (insertionSortCourses
          [⟨"CS301".toList, "Algorithms".toList, [], "CS301".toList⟩,
           ⟨"CS101".toList, "Intro".toList, [], "CS101".toList⟩]).Pairwise
        (fun a b =>
          strLt a.courseNumber b.courseNumber = true ∨ a.courseNumber = b.courseNumber) :=
  ⟨by decide,
   (printAll_sorted insertionSortCourses insertionSortCourses_contract
     "CS301,Algorithms\nCS101,Intro".toList
     [⟨"CS301".toList, "Algorithms".toList, [], "CS301".toList⟩,
      ⟨"CS101".toList, "Intro".toList, [], "CS101".toList⟩] (by decide)).2.1 (by decide),
   (printAll_sorted insertionSortCourses insertionSortCourses_contract
     "CS301,Algorithms\nCS101,Intro".toList
     [⟨"CS301".toList, "Algorithms".toList, [], "CS301".toList⟩,
      ⟨"CS101".toList, "Intro".toList, [], "CS101".toList⟩] (by decide)).2.2.2.2.2⟩

/-! ### The insertion sort of `std::sort` -/

theorem elemAt_append_length (pre : List Course) (x : Course) (suf : List Course) :
    elemAt (pre ++ x :: suf) pre.length = x := by
  induction pre with
  | nil => rfl
  | cons h t ih => exact ih

theorem set_append_length (pre : List Course) (x y : Course) (suf : List Course) :
    (pre ++ x :: suf).set pre.length y = pre ++ y :: suf := by
  simp [List.set_append]

theorem unguardedLinearInsert_eq (x : Course) :
    ∀ (pre : List Course) (stale : Course) (suf : List Course),
      unguardedLinearInsert (pre ++ stale :: suf) x pre.length =
        (insertFromBack x pre.reverse).reverse ++ suf := by
  intro pre
  induction pre using List.reverseRecOn with
  | nil =>
    intro stale suf
    simp [unguardedLinearInsert, insertFromBack]
  | append_singleton p y ih =>
    intro stale suf
    have hlen : (p ++ [y]).length = p.length + 1 := by simp
    have hacc : elemAt (p ++ [y] ++ stale :: suf) p.length = y := by
      have := elemAt_append_length p y (stale :: suf)
      simpa using this
    rw [hlen, unguardedLinearInsert, hacc]
    by_cases hlt : Course.lt x y = true
    · have hset : (p ++ [y] ++ stale :: suf).set (p.length + 1) y = p ++ y :: (y :: suf) := by
          simp
      rw [if_pos hlt, hset, ih y (y :: suf)]
      simp [insertFromBack, hlt]
    · have hset : (p ++ [y] ++ stale :: suf).set (p.length + 1) x = p ++ y :: (x :: suf) := by
          simp
      rw [if_neg hlt, hset]
      simp [insertFromBack, hlt]

theorem moveToFirst_eq (pre : List Course) (x : Course) (suf : List Course) :
    moveToFirst (pre ++ x :: suf) 0 pre.length = x :: (pre ++ suf) := by
  unfold moveToFirst
  rw [elemAt_append_length]
  simp

theorem insertFromBack_length (x : Course) :
    ∀ (r : List Course), (insertFromBack x r).length = r.length + 1 := by
  intro r
  induction r with
  | nil => rfl
  | cons y ys ih =>
    unfold insertFromBack
    split <;> simp [ih]

theorem insertionStep_length (p : List Course) (x : Course) :
    (insertionStep p x).length = p.length + 1 := by
  unfold insertionStep
  split
  · simp
  · simp [insertFromBack_length]

theorem insertionSortLoop_eq :
    ∀ (rest p : List Course), p ≠ [] →
      insertionSortLoop 0 rest.length p.length (p ++ rest) = rest.foldl insertionStep p := by
  intro rest
  induction rest with
  | nil => intro p _; simp [insertionSortLoop]
  | cons x rest ih =>
    intro p hp
    have hhead : elemAt (p ++ x :: rest) 0 = p.headD Course.empty := by
      cases p with
      | nil => exact absurd rfl hp
      | cons h t => rfl
    have hstep : (if Course.lt (elemAt (p ++ x :: rest) p.length) (elemAt (p ++ x :: rest) 0)
          then moveToFirst (p ++ x :: rest) 0 p.length
          else unguardedLinearInsert (p ++ x :: rest) (elemAt (p ++ x :: rest) p.length)
            p.length) = insertionStep p x ++ rest := by
      rw [elemAt_append_length, hhead]
      unfold insertionStep
      by_cases hlt : Course.lt x (p.headD Course.empty) = true
      · rw [if_pos hlt, if_pos hlt, moveToFirst_eq]
        rfl
      · rw [if_neg hlt, if_neg hlt, unguardedLinearInsert_eq]
    have hne : insertionStep p x ≠ [] := by
      intro h
      have := insertionStep_length p x
      rw [h] at this
      simp at this
    rw [List.length_cons, insertionSortLoop, hstep, ← insertionStep_length p x,
      ih (insertionStep p x) hne]
    rfl

theorem stdSort_small (x : Course) (xs : List Course) (h : (x :: xs).length ≤ 16) :
    stdSort (x :: xs) = xs.foldl insertionStep [x] := by
  have h16 : ¬ ((x :: xs).length - 0 > 16) := by omega
  have hintro : introsortLoop (x :: xs).length (x :: xs) 0 (x :: xs).length
      (2 * lg (x :: xs).length (x :: xs).length) = x :: xs := by
    rw [List.length_cons, introsortLoop, if_neg (by simpa using h16)]
  unfold stdSort
  rw [if_neg (by simp), hintro]
  unfold finalInsertionSort
  rw [if_neg h16]
  unfold insertionSort
  rw [if_neg (by simp)]
  have := insertionSortLoop_eq xs [x] (by simp)
  simpa using this

theorem strLt_irrefl (a : Str) : strLt a a = false := by
  cases h : strLt a a
  · rfl
  · rw [strLt_asymm a a h] at h
    exact absurd h (by simp)

theorem strLt_trans (a b c : Str) (hab : strLt a b = true) (hbc : strLt b c = true) :
    strLt a c = true := by
  cases hac : strLt a c
  · have h1 := strLe_trans c a b hac (strLt_asymm a b hab)
    rw [hbc] at h1
    exact absurd h1 (by simp)
  · rfl

theorem lt_key_ne (x y : Course) (h : Course.lt x y = true) : x.key ≠ y.key := by
  intro heq
  unfold Course.lt at h
  rw [heq, strLt_irrefl] at h
  exact absurd h (by simp)

theorem insertFromBack_filter (x : Course) (k : Str) :
    ∀ (r : List Course),
      ((insertFromBack x r).reverse).filter (fun c => c.key = k) =
        (r.reverse).filter (fun c => c.key = k) ++ [x].filter (fun c => c.key = k) := by
  intro r
  induction r with
  | nil => simp [insertFromBack]
  | cons y ys ih =>
    by_cases hlt : Course.lt x y = true
    · have hne := lt_key_ne x y hlt
      simp only [insertFromBack, hlt, if_true, List.reverse_cons, List.filter_append, ih,
        List.append_assoc]
      by_cases hx : x.key = k
      · have hy : ¬ y.key = k := fun h => hne (hx.trans h.symm)
        simp [hx, hy]
      · simp [hx]
    · have hlt2 : Course.lt x y = false := by simpa using hlt
      simp only [insertFromBack, hlt2, List.reverse_cons, List.filter_append,
        List.append_assoc]
      simp
      exact List.filter_append [y] [x]

theorem insertFromBack_perm (x : Course) :
    ∀ (r : List Course), (insertFromBack x r).Perm (x :: r) := by
  intro r
  induction r with
  | nil => exact List.Perm.refl _
  | cons y ys ih =>
    unfold insertFromBack
    split
    · exact ((List.Perm.cons y ih).trans (List.Perm.swap x y ys))
    · exact List.Perm.refl _

theorem insertionStep_perm (p : List Course) (x : Course) :
    (insertionStep p x).Perm (p ++ [x]) := by
  unfold insertionStep
  split
  · exact (List.perm_append_singleton x p).symm
  · refine (List.reverse_perm _).trans ((insertFromBack_perm x p.reverse).trans ?_)
    exact ((List.Perm.cons x (List.reverse_perm p)).trans (List.perm_append_singleton x p).symm)

theorem insertFromBack_last (x h : Course) (hlt : Course.lt x h = false) :
    ∀ (s : List Course), ∃ u, insertFromBack x (s ++ [h]) = u ++ [h] ∧
      ∀ z ∈ u, z = x ∨ z ∈ s := by
  intro s
  induction s with
  | nil =>
    refine ⟨[x], by simp [insertFromBack, hlt], ?_⟩
    intro z hz
    simp at hz
    exact Or.inl hz
  | cons y ys ih =>
    obtain ⟨u, hu, hmem⟩ := ih
    by_cases hxy : Course.lt x y = true
    · refine ⟨y :: u, by simp [insertFromBack, hxy, hu], ?_⟩
      intro z hz
      rcases List.mem_cons.mp hz with h0 | h0
      · exact Or.inr (by simp [h0])
      · rcases hmem z h0 with h1 | h1
        · exact Or.inl h1
        · exact Or.inr (List.mem_cons_of_mem _ h1)
    · refine ⟨x :: y :: ys, by simp [insertFromBack, hxy], ?_⟩
      intro z hz
      rcases List.mem_cons.mp hz with h0 | h0
      · exact Or.inl h0
      · exact Or.inr h0

theorem insertionStep_firstLeast (p : List Course) (x : Course) (hp : p ≠ [])
    (hinv : FirstLeast p) : FirstLeast (insertionStep p x) := by
  cases p with
  | nil => exact absurd rfl hp
  | cons h t =>
    unfold insertionStep
    by_cases hlt : Course.lt x h = true
    · simp only [List.headD_cons, hlt, if_true]
      intro y hy
      simp only [List.headD_cons]
      rcases List.mem_cons.mp hy with h0 | h0
      · rw [h0]
        exact strLt_irrefl x.key
      · have hyh : Course.lt y h = false := hinv y h0
        cases hyx : Course.lt y x
        · rfl
        · have := strLt_trans y.key x.key h.key hyx hlt
          unfold Course.lt at hyh
          rw [this] at hyh
          exact absurd hyh (by simp)
    · have hlt2 : Course.lt x h = false := by simpa using hlt
      simp only [List.headD_cons, hlt, if_false, List.reverse_cons]
      obtain ⟨u, hu, hmem⟩ := insertFromBack_last x h hlt2 t.reverse
      rw [hu]
      intro y hy
      simp only [List.reverse_append, List.reverse_cons, List.reverse_nil, List.nil_append,
        List.singleton_append, List.headD_cons] at hy ⊢
      rcases List.mem_cons.mp hy with h0 | h0
      · rw [h0]
        exact strLt_irrefl h.key
      · rcases hmem y (List.mem_reverse.mp h0) with h1 | h1
        · rw [h1]
          exact hlt2
        · exact hinv y (List.mem_cons_of_mem _ (List.mem_reverse.mp h1))

theorem insertionStep_filter (p : List Course) (x : Course) (k : Str)
    (hinv : FirstLeast p) :
    (insertionStep p x).filter (fun c => c.key = k) =
      p.filter (fun c => c.key = k) ++ [x].filter (fun c => c.key = k) := by
  unfold insertionStep
  by_cases hlt : Course.lt x (p.headD Course.empty) = true
  · rw [if_pos hlt]
    by_cases hx : x.key = k
    · have hnone : p.filter (fun c => c.key = k) = [] := by
        rw [List.filter_eq_nil_iff]
        intro y hy
        simp only [decide_eq_true_eq]
        intro hyk
        have hyh := hinv y hy
        unfold Course.lt at hyh hlt
        rw [hyk, ← hx, hlt] at hyh
        exact absurd hyh (by simp)
      simp [hx, hnone]
    · simp [hx]
  · rw [if_neg hlt]
    have := insertFromBack_filter x k p.reverse
    rw [List.reverse_reverse] at this
    exact this

theorem foldl_insertionStep :
    ∀ (rest p : List Course) (k : Str), p ≠ [] → FirstLeast p →
      (rest.foldl insertionStep p).filter (fun c => c.key = k) =
          (p ++ rest).filter (fun c => c.key = k) ∧
        (rest.foldl insertionStep p).Perm (p ++ rest) := by
  intro rest
  induction rest with
  | nil => intro p k _ _; simp
  | cons x rest ih =>
    intro p k hp hinv
    have hne : insertionStep p x ≠ [] := by
      intro h
      have := insertionStep_length p x
      rw [h] at this
      simp at this
    obtain ⟨h1, h2⟩ := ih (insertionStep p x) k hne (insertionStep_firstLeast p x hp hinv)
    constructor
    · rw [List.foldl_cons, h1, List.filter_append, insertionStep_filter p x k hinv,
        List.append_assoc, ← List.filter_append, ← List.filter_append]
      rfl
    · rw [List.foldl_cons]
      refine h2.trans ?_
      have := (insertionStep_perm p x).append_right rest
      simpa using this

theorem stdSort_stable_small (a : List Course) (h : a.length ≤ 16) (k : Str) :
    (stdSort a).filter (fun c => c.key = k) = a.filter (fun c => c.key = k) ∧
      (stdSort a).Perm a := by
  cases a with
  | nil => simp [stdSort]
  | cons x xs =>
    rw [stdSort_small x xs h]
    have hinv : FirstLeast [x] := by
      intro y hy
      simp at hy
      rw [hy]
      exact strLt_irrefl x.key
    exact foldl_insertionStep xs [x] k (by simp) hinv

set_option maxRecDepth 100000 in
/-- C8, as stated, fails on catalogs of more than sixteen records, which
`std::sort` partitions: of the seventeen records loaded from the lines
`CS101,S01` to `CS101,S17`, all with the same number, `printAll` leaves `S09`
first and `S02` last. -/
theorem printAll_stable_counterexample :
    processFile seventeenSections [] = some (.coursesLoaded, seventeenCatalog) ∧
      (printAll stdSort seventeenCatalog).1.map (fun c => c.courseName) =
        [ "S09".toList,
          "S17".toList,
          "S16".toList,
          "S15".toList,
          "S14".toList,
          "S13".toList,
          "S12".toList,
          "S11".toList,
          "S10".toList,
          "S01".toList,
          "S08".toList,
          "S07".toList,
          "S06".toList,
          "S05".toList,
          "S04".toList,
          "S03".toList,
          "S02".toList ] := by
  decide

/-- C8, amended: on a catalog of at most sixteen records (each with its number
as key, as `processFile` builds them) the sort of `printAll` is stable: for
every number, the records with that number stand in the collection `printAll`
leaves in the order they had before the call. -/
theorem printAll_stable_small (cl : List Course)
    (hkey : ∀ c ∈ cl, c.key = c.courseNumber) (hlen : cl.length ≤ 16) (number : Str) :
    ((printAll stdSort cl).1).filter (fun c => c.courseNumber = number) =
      cl.filter (fun c => c.courseNumber = number) := by
  obtain ⟨hfilter, hperm⟩ := stdSort_stable_small cl hlen number
  have h1 : (stdSort cl).filter (fun c => c.courseNumber = number) =
      (stdSort cl).filter (fun c => c.key = number) := by
    apply List.filter_congr
    intro c hc
    rw [hkey c (hperm.mem_iff.mp hc)]
  have h2 : cl.filter (fun c => c.courseNumber = number) =
      cl.filter (fun c => c.key = number) := by
    apply List.filter_congr
    intro c hc
    rw [hkey c hc]
  show (stdSort cl).filter (fun c => c.courseNumber = number) = _
  rw [h1, h2, hfilter]

theorem printAll_stable_small_witness :
    (printAll stdSort
        [⟨"CS201".toList, "Data Structures".toList, [], "CS201".toList⟩,
         ⟨"CS101".toList, "First".toList, [], "CS101".toList⟩,
         ⟨"CS101".toList, "Second".toList, [], "CS101".toList⟩]).1.filter
        (fun c => c.courseNumber = "CS101".toList) =
      [⟨"CS101".toList, "First".toList, [], "CS101".toList⟩,
       ⟨"CS101".toList, "Second".toList, [], "CS101".toList⟩] :=
  printAll_stable_small
    [⟨"CS201".toList, "Data Structures".toList, [], "CS201".toList⟩,
     ⟨"CS101".toList, "First".toList, [], "CS101".toList⟩,
     ⟨"CS101".toList, "Second".toList, [], "CS101".toList⟩]
    (by decide) (by decide) "CS101".toList

theorem printCourse_none :
    ∀ (cl : List Course) (n : Str), (∀ c ∈ cl, c.courseNumber ≠ n) →
      printCourse cl n = some (false, "Course not found.\n".toList) := by
  intro cl
  induction cl with
  | nil => intro n _; rfl
  | cons c cs ih =>
    intro n h
    have hc := h c (List.mem_cons_self _ _)
    simp only [printCourse, hc, if_false]
    exact ih n (fun x hx => h x (List.mem_cons_of_mem _ hx))

theorem printCourse_first :
    ∀ (pre : List Course) (c : Course) (post : List Course) (n : Str),
      (∀ x ∈ pre, x.courseNumber ≠ n) → c.courseNumber = n →
      printCourse (pre ++ c :: post) n =
        (displayCourse c).map (fun out => (true, out)) := by
  intro pre
  induction pre with
  | nil =>
    intro c post n _ hc
    simp only [List.nil_append, printCourse, hc, if_true]
    cases displayCourse c <;> rfl
  | cons x pre ih =>
    intro c post n h hc
    have hx := h x (List.mem_cons_self _ _)
    simp only [List.cons_append, printCourse, hx, if_false]
    exact ih c post n (fun y hy => h y (List.mem_cons_of_mem _ hy)) hc

theorem printCourse_cases (cl : List Course) (n : Str) :
    (∀ c ∈ cl, c.courseNumber ≠ n) ∨
      ∃ pre c post, cl = pre ++ c :: post ∧ (∀ x ∈ pre, x.courseNumber ≠ n) ∧
        c.courseNumber = n := by
  induction cl with
  | nil => left; intro c hc; simp at hc
  | cons x cs ih =>
    by_cases hx : x.courseNumber = n
    · right
      exact ⟨[], x, cs, rfl, by intro y hy; simp at hy, hx⟩
    · rcases ih with h | ⟨pre, c, post, h1, h2, h3⟩
      · left
        intro c hc
        rcases List.mem_cons.mp hc with h0 | h0
        · rw [h0]; exact hx
        · exact h c h0
      · right
        refine ⟨x :: pre, c, post, by rw [h1]; rfl, ?_, h3⟩
        intro y hy
        rcases List.mem_cons.mp hy with h0 | h0
        · rw [h0]; exact hx
        · exact h2 y h0

/-- C9: `printCourse` returns `true` and displays the first record of the
collection whose number is the argument (equality of strings, character by
character): what it writes is what `displayCourse` writes for that record, the
text of the record when the record has no more prerequisites than an `int` can
count.  It returns `false` with `Course not found.` exactly when no record has
that number.  On the catalog loaded from the example file, `CS201` displays
the record named `Data Structures` with the prerequisite `CS101`; `CS999`, and
`CS201` in lower case or with a leading blank, are not found. -/
theorem printCourse_first_match (cl : List Course) (n : Str) :
    (∀ pre c post, cl = pre ++ c :: post → (∀ x ∈ pre, x.courseNumber ≠ n) →
        c.courseNumber = n →
        printCourse cl n = (displayCourse c).map (fun out => (true, out)) ∧
        (c.prerequisites.length ≤ 2 ^ 31 →
          printCourse cl n = some (true, displayText c))) ∧
    ((∀ c ∈ cl, c.courseNumber ≠ n) ↔
        printCourse cl n = some (false, "Course not found.\n".toList)) ∧
    ((∀ c ∈ cl, c.courseNumber ≠ n) ↔ (printCourse cl n).map (fun r => r.1) = some false) ∧
    (processFile exampleFile [] = some (.coursesLoaded, exampleCatalog) ∧
      printCourse exampleCatalog "CS201".toList =
        some (true, "CS201: Data Structures\n\t Prerequisites: CS101\n".toList) ∧
      exampleCatalog.find? (fun c => c.courseNumber = "CS201".toList) =
        some ⟨"CS201".toList, "Data Structures".toList, ["CS101".toList],
          "CS201".toList⟩ ∧
      printCourse exampleCatalog "CS999".toList =
        some (false, "Course not found.\n".toList) ∧
      printCourse exampleCatalog "cs201".toList =
        some (false, "Course not found.\n".toList) ∧
      printCourse exampleCatalog " CS201".toList =
        some (false, "Course not found.\n".toList)) := by
  refine ⟨?_, ?_, ?_, by decide⟩
  · intro pre c post hcl hpre hc
    rw [hcl]
    refine ⟨printCourse_first pre c post n hpre hc, fun hmax => ?_⟩
    rw [printCourse_first pre c post n hpre hc, displayCourse_eq c hmax]
    rfl
  · constructor
    · exact printCourse_none cl n
    · intro h
      rcases printCourse_cases cl n with h0 | ⟨pre, c, post, h1, h2, h3⟩
      · exact h0
      · rw [h1, printCourse_first pre c post n h2 h3] at h
        cases hd : displayCourse c <;> rw [hd] at h <;> simp at h
  · constructor
    · intro h
      rw [printCourse_none cl n h]
      rfl
    · intro h
      rcases printCourse_cases cl n with h0 | ⟨pre, c, post, h1, h2, h3⟩
      · exact h0
      · rw [h1, printCourse_first pre c post n h2 h3] at h
        cases hd : displayCourse c <;> rw [hd] at h <;> simp at h

/-- Up to `2 ^ 31` prerequisites (the loop index does not overflow),
`displayCourse` writes the line `number: name`, and nothing more when the
record has no prerequisite; when it has prerequisites it writes a second line:
a tab, the text ` Prerequisites: ` and the prerequisite numbers joined with a
comma and a blank, nothing after the last.  For CS301 / Algorithms /
[CS101, CS201] the second line is tab, blank, `Prerequisites: CS101, CS201`. -/
theorem displayCourse_format (c : Course) (hmax : c.prerequisites.length ≤ 2 ^ 31) :
    (c.prerequisites = [] →
        displayCourse c =
          some (c.courseNumber ++ ": ".toList ++ c.courseName ++ "\n".toList)) ∧
    (c.prerequisites ≠ [] →
        displayCourse c =
          some (c.courseNumber ++ ": ".toList ++ c.courseName ++ "\n".toList ++
            ("\t Prerequisites: ".toList ++
              ", ".toList.intercalate c.prerequisites ++ "\n".toList))) ∧
    displayCourse
        ⟨"CS301".toList, "Algorithms".toList, ["CS101".toList, "CS201".toList],
          "CS301".toList⟩ =
      some ("CS301: Algorithms\n".toList ++
        '\t' :: ' ' :: "Prerequisites: CS101, CS201\n".toList) := by
  refine ⟨?_, ?_, by decide⟩
  · intro h
    rw [displayCourse_eq c hmax, displayText, if_pos h, List.append_nil]
  · intro h
    rw [displayCourse_eq c hmax, displayText, if_neg h]

theorem printCourse_first_match_witness :
    printCourse exampleCatalog "CS301".toList =
      some (true, "CS301: Algorithms\n\t Prerequisites: CS101, CS201\n".toList) :=
  ((printCourse_first_match exampleCatalog "CS301".toList).1
    [⟨"CS101".toList, "Intro to Programming".toList, [], "CS101".toList⟩,
     ⟨"CS201".toList, "Data Structures".toList, ["CS101".toList], "CS201".toList⟩]
    ⟨"CS301".toList, "Algorithms".toList, ["CS101".toList, "CS201".toList],
      "CS301".toList⟩
    [] (by decide) (by decide) (by decide)).2 (by decide)

/-! ### Blank lines -/

theorem scanLines_filter (nums : List Str) :
    ∀ (ls : List Str) (cl : List Course),
      scanLines nums ls cl = scanLines nums (ls.filter (fun l => l ≠ [])) cl := by
  intro ls
  induction ls with
  | nil => intro cl; rfl
  | cons l ls ih =>
    intro cl
    by_cases hl : l = []
    · subst hl
      simp [scanLines, lineResult_nil, ih cl]
    · simp only [ne_eq, hl, not_false_eq_true, decide_True, List.filter_cons_of_pos, scanLines]
      rcases lineResult nums l with st | c | _
      · rfl
      · exact ih _
      · exact ih _

theorem collectNums_filter :
    ∀ (ls : List Str) (nums : List Str),
      collectNums ls nums = collectNums (ls.filter (fun l => l ≠ [])) nums := by
  intro ls
  induction ls with
  | nil => intro nums; rfl
  | cons l ls ih =>
    intro nums
    by_cases hl : l = []
    · subst hl
      simp [collectNums, ih nums]
    · simp only [ne_eq, hl, not_false_eq_true, decide_True, List.filter_cons_of_pos,
        collectNums, if_false]
      exact ih _

theorem processFile_congr (content content2 : Str) (cl : List Course)
    (h : nonEmptyLines content2 = nonEmptyLines content) :
    processFile content2 cl = processFile content cl := by
  unfold nonEmptyLines at h
  rw [processFile_eq, processFile_eq, scanLines_filter _ (fileLines content2),
    scanLines_filter _ (fileLines content), collectNums_filter (fileLines content2),
    collectNums_filter (fileLines content), h]

theorem splitOn_not_mem (d : Char) :
    ∀ (l : Str), ∀ p ∈ splitOn d l, d ∉ p := by
  intro l
  induction l with
  | nil => intro p hp; simp [splitOn] at hp; simp [hp]
  | cons c cs ih =>
    intro p hp
    by_cases hc : c = d
    · simp only [splitOn, hc, if_true, List.mem_cons] at hp
      rcases hp with hp | hp
      · simp [hp]
      · exact ih p hp
    · simp only [splitOn, hc, if_false] at hp
      rcases hs : splitOn d cs with _ | ⟨h, t⟩
      · exact absurd hs (splitOn_ne_nil d cs)
      · rw [hs] at hp ih
        simp only [List.mem_cons] at hp
        rcases hp with hp | hp
        · have := ih h (by simp)
          rw [hp]
          intro hmem
          rcases List.mem_cons.mp hmem with h0 | h0
          · exact hc h0.symm
          · exact this h0
        · exact ih p (by simp [hp])

theorem splitOn_append (d : Char) (r : Str) :
    ∀ (l : Str), d ∉ l → splitOn d (l ++ d :: r) = l :: splitOn d r := by
  intro l
  induction l with
  | nil => intro _; simp [splitOn]
  | cons c cs ih =>
    intro hd
    have hc : ¬ c = d := fun h => hd (by simp [h])
    have hcs : d ∉ cs := fun h => hd (List.mem_cons_of_mem _ h)
    simp [splitOn, hc, ih hcs]

theorem splitOn_no_delim (d : Char) :
    ∀ (l : Str), d ∉ l → splitOn d l = [l] := by
  intro l
  induction l with
  | nil => intro _; rfl
  | cons c cs ih =>
    intro hd
    have hc : ¬ c = d := fun h => hd (by simp [h])
    have hcs : d ∉ cs := fun h => hd (List.mem_cons_of_mem _ h)
    simp [splitOn, hc, ih hcs]

theorem splitOn_intercalate (d : Char) :
    ∀ (ls : List Str), ls ≠ [] → (∀ l ∈ ls, d ∉ l) →
      splitOn d ([d].intercalate ls) = ls := by
  intro ls
  induction ls with
  | nil => intro h _; exact absurd rfl h
  | cons l rest ih =>
    intro _ hd
    cases rest with
    | nil =>
      simp only [List.intercalate, List.intersperse, List.flatten, List.append_nil]
      exact splitOn_no_delim d l (hd l (by simp))
    | cons m rest2 =>
      have hrec := ih (by simp) (fun x hx => hd x (List.mem_cons_of_mem _ hx))
      have hl : d ∉ l := hd l (by simp)
      have : [d].intercalate (l :: m :: rest2) = l ++ d :: [d].intercalate (m :: rest2) := by
        simp [List.intercalate, List.intersperse]
      rw [this, splitOn_append d _ l hl, hrec]

theorem intercalate_splitOn (d : Char) :
    ∀ (l : Str), [d].intercalate (splitOn d l) = l := by
  intro l
  induction l with
  | nil => simp [splitOn, List.intercalate]
  | cons c cs ih =>
    rcases hs : splitOn d cs with _ | ⟨h, t⟩
    · exact absurd hs (splitOn_ne_nil d cs)
    · rw [hs] at ih
      by_cases hc : c = d
      · simp only [splitOn, hc, if_true, hs]
        have : [d].intercalate ([] :: h :: t) = d :: [d].intercalate (h :: t) := by
          simp [List.intercalate, List.intersperse]
        rw [this, ih]
      · simp only [splitOn, hc, if_false, hs]
        have : [d].intercalate ((c :: h) :: t) = c :: [d].intercalate (h :: t) := by
          cases t <;> simp [List.intercalate, List.intersperse]
        rw [this, ih]

theorem fileLines_joinLines (ls : List Str) (hne : ls ≠ []) (h : ∀ l ∈ ls, '\n' ∉ l) :
    fileLines (joinLines ls) = ls :=
  splitOn_intercalate '\n' ls hne h

theorem nonEmptyLines_joinLines (ls : List Str) (h : ∀ l ∈ ls, '\n' ∉ l) :
    nonEmptyLines (joinLines ls) = ls.filter (fun l => l ≠ []) := by
  by_cases hne : ls = []
  · subst hne
    simp [nonEmptyLines, fileLines, joinLines, List.intercalate, splitOn]
  · rw [nonEmptyLines, fileLines_joinLines ls hne h]

theorem nonEmptyLines_removeBlankLines (content : Str) :
    nonEmptyLines (removeBlankLines content) = nonEmptyLines content := by
  unfold removeBlankLines
  rw [nonEmptyLines_joinLines]
  · unfold nonEmptyLines
    rw [List.filter_filter]
    simp
  · intro l hl
    exact splitOn_not_mem '\n' content l ((mem_nonEmptyLines content l).mp hl).1

/-- C11: blank lines do not count.  Two files with the same non-empty lines in
the same order give the same result from any store: the same status and the
same collection.  In particular the file with a blank line inserted at any
place between its lines, and the file with all its blank lines removed, give
the result of the file itself. -/
theorem blank_lines_ignored (content : Str) (cl : List Course) :
    (∀ content2, nonEmptyLines content2 = nonEmptyLines content →
        processFile content2 cl = processFile content cl) ∧
    (∀ pre post, fileLines content = pre ++ post →
        fileLines (joinLines (pre ++ [] :: post)) = pre ++ [] :: post ∧
        processFile (joinLines (pre ++ [] :: post)) cl = processFile content cl) ∧
    (nonEmptyLines (removeBlankLines content) = nonEmptyLines content ∧
      (∀ l ∈ fileLines (removeBlankLines content), l ≠ [] ∨ nonEmptyLines content = []) ∧
      processFile (removeBlankLines content) cl = processFile content cl) := by
  refine ⟨fun content2 h => processFile_congr content content2 cl h, ?_, ?_⟩
  · intro pre post hsplit
    have hno : ∀ l ∈ pre ++ [] :: post, '\n' ∉ l := by
      intro l hl
      rcases List.mem_append.mp hl with h0 | h0
      · exact splitOn_not_mem '\n' content l (by
          show l ∈ fileLines content
          rw [hsplit]; exact List.mem_append_left _ h0)
      · rcases List.mem_cons.mp h0 with h1 | h1
        · rw [h1]; simp
        · exact splitOn_not_mem '\n' content l (by
            show l ∈ fileLines content
            rw [hsplit]; exact List.mem_append_right _ h1)
    refine ⟨fileLines_joinLines _ (by simp) hno, ?_⟩
    apply processFile_congr
    rw [nonEmptyLines_joinLines _ hno]
    unfold nonEmptyLines
    rw [hsplit]
    simp [List.filter_append]
  · refine ⟨nonEmptyLines_removeBlankLines content, ?_,
      processFile_congr content _ cl (nonEmptyLines_removeBlankLines content)⟩
    intro l hl
    by_cases hne : nonEmptyLines content = []
    · exact Or.inr hne
    · left
      have hno : ∀ x ∈ nonEmptyLines content, '\n' ∉ x := fun x hx =>
        splitOn_not_mem '\n' content x ((mem_nonEmptyLines content x).mp hx).1
      unfold removeBlankLines at hl
      rw [fileLines_joinLines _ hne hno] at hl
      exact ((mem_nonEmptyLines content l).mp hl).2

theorem blank_lines_ignored_witness :
    processFile ("\nCS101,Intro\n\n\nCS201,Data Structures,CS101\n\n").toList [] =
        processFile "CS101,Intro\nCS201,Data Structures,CS101".toList [] ∧
      processFile "CS101,Intro\nCS201,Data Structures,CS101".toList [] =
        some (.coursesLoaded,
          [⟨"CS101".toList, "Intro".toList, [], "CS101".toList⟩,
           ⟨"CS201".toList, "Data Structures".toList, ["CS101".toList],
             "CS201".toList⟩]) :=
  ⟨(blank_lines_ignored "CS101,Intro\nCS201,Data Structures,CS101".toList []).1
     ("\nCS101,Intro\n\n\nCS201,Data Structures,CS101\n\n").toList (by decide),
   by decide⟩

/-! ### Prerequisites and stored numbers -/

theorem prereqsStored_append (a b : List Course) (ha : PrereqsStored a)
    (hb : PrereqsStored b) : PrereqsStored (a ++ b) := by
  intro c hc p hp
  rcases List.mem_append.mp hc with h | h
  · obtain ⟨c2, hc2, h2⟩ := ha c h p hp
    exact ⟨c2, List.mem_append_left _ hc2, h2⟩
  · obtain ⟨c2, hc2, h2⟩ := hb c h p hp
    exact ⟨c2, List.mem_append_right _ hc2, h2⟩

theorem prereqsStored_records (content : Str)
    (hacc : ∀ l ∈ fileLines content, LineAccepted (courseNumbers content) l) :
    PrereqsStored ((nonEmptyLines content).map recordOf) := by
  intro c hc p hp
  obtain ⟨l, hl, hcl⟩ := List.mem_map.mp hc
  obtain ⟨hmem, hne⟩ := (mem_nonEmptyLines content l).mp hl
  rcases hacc l hmem with h0 | ⟨_, hknown⟩
  · exact absurd h0 hne
  · rw [← hcl] at hp
    have hp2 : p ∈ courseNumbers content := hknown p hp
    unfold courseNumbers at hp2
    obtain ⟨l2, hl2, hhead⟩ := List.mem_filterMap.mp hp2
    refine ⟨recordOf l2, List.mem_map.mpr ⟨l2, hl2, rfl⟩, ?_⟩
    unfold recordOf
    rcases hf : fields l2 with _ | ⟨n, rest⟩
    · rw [hf] at hhead
      simp at hhead
    · rw [hf] at hhead
      simp at hhead
      simp [hhead]

theorem processFile_loaded_accepted (content : Str) (cl cl2 : List Course)
    (h : processFile content cl = some (.coursesLoaded, cl2)) :
    ∀ l ∈ fileLines content, LineAccepted (courseNumbers content) l := by
  rcases processFile_cases content cl with
    ⟨hacc, _⟩ | ⟨pre, l, post, st, _, _, _, _, hst, hres⟩
  · exact hacc
  · rw [hres] at h
    rcases hst with ⟨_, hst⟩ | ⟨_, _, hst⟩ <;> subst hst <;> simp at h

/-- C12, as stated, fails on a course that lists itself: the file with the one
line `CS101,Intro,CS101` loads, and the only record with the number `CS101` is
the record that has it as prerequisite. -/
theorem prerequisite_other_counterexample :
    processFile "CS101,Intro,CS101".toList [] =
        some (.coursesLoaded,
          [⟨"CS101".toList, "Intro".toList, ["CS101".toList], "CS101".toList⟩]) ∧
      ∀ c ∈ [(⟨"CS101".toList, "Intro".toList, ["CS101".toList], "CS101".toList⟩ : Course)],
        ∀ p ∈ c.prerequisites,
          ¬ ∃ c2 ∈ [(⟨"CS101".toList, "Intro".toList, ["CS101".toList],
              "CS101".toList⟩ : Course)],
            c2 ≠ c ∧ c2.courseNumber = p := by
  decide

/-- C12, amended: after a successful load into the empty store, every
prerequisite of every stored record is the number of a stored record, which
may be the record itself. -/
theorem prerequisite_stored (content : Str) (cl : List Course)
    (h : processFile content [] = some (.coursesLoaded, cl)) :
    ∀ c ∈ cl, ∀ p ∈ c.prerequisites, ∃ c2 ∈ cl, c2.courseNumber = p := by
  have hcl : cl = (nonEmptyLines content).map recordOf := by
    simpa using (processFile_loaded content [] cl h).1
  rw [hcl]
  exact prereqsStored_records content (processFile_loaded_accepted content [] cl h)

theorem prerequisite_stored_witness :
    processFile exampleFile [] = some (.coursesLoaded, exampleCatalog) ∧
      ∀ c ∈ exampleCatalog, ∀ p ∈ c.prerequisites,
        ∃ c2 ∈ exampleCatalog, c2.courseNumber = p :=
  ⟨by decide, prerequisite_stored exampleFile exampleCatalog (by decide)⟩

/-! ### The fields of a line -/

theorem splitOn_length (d : Char) :
    ∀ (l : Str), (splitOn d l).length = l.count d + 1 := by
  intro l
  induction l with
  | nil => simp [splitOn]
  | cons c cs ih =>
    rcases hs : splitOn d cs with _ | ⟨h, t⟩
    · exact absurd hs (splitOn_ne_nil d cs)
    · rw [hs] at ih
      by_cases hc : c = d
      · subst hc
        simp only [splitOn, if_true, hs, List.length_cons, List.count_cons_self] at ih ⊢
        omega
      · have hcount : (c :: cs).count d = cs.count d := List.count_cons_of_ne (fun h => hc h.symm) cs
        simp only [splitOn, hc, if_false, hs, List.length_cons, hcount] at ih ⊢
        omega

theorem splitOn_singleton_nil (d : Char) (l : Str) (h : splitOn d l = [[]]) : l = [] := by
  cases l with
  | nil => rfl
  | cons c cs =>
    rcases hs : splitOn d cs with _ | ⟨h2, t⟩
    · exact absurd hs (splitOn_ne_nil d cs)
    · by_cases hc : c = d
      · simp [splitOn, hc, hs] at h
      · simp [splitOn, hc, hs] at h

theorem splitOn_getLast (d : Char) :
    ∀ (l : Str), (splitOn d l).getLast? = some [] ↔ (l = [] ∨ l.getLast? = some d) := by
  intro l
  induction l with
  | nil => simp [splitOn]
  | cons c cs ih =>
    rcases hs : splitOn d cs with _ | ⟨h, t⟩
    · exact absurd hs (splitOn_ne_nil d cs)
    · rw [hs] at ih
      by_cases hc : c = d
      · subst hc
        simp only [splitOn, if_true, hs, List.getLast?_cons_cons, ih]
        cases cs with
        | nil => simp
        | cons x xs => simp [List.getLast?_cons_cons]
      · simp only [splitOn, hc, if_false, hs]
        cases cs with
        | nil =>
          simp [splitOn] at hs
          obtain ⟨h1, h2⟩ := hs
          subst h1 h2
          simp
          exact fun h => hc h
        | cons x xs =>
          cases t with
          | nil =>
            have hh : (c :: h) ≠ [] := by simp
            simp only [List.getLast?_singleton, Option.some.injEq, hh, false_iff]
            simp only [List.getLast?_singleton, Option.some.injEq] at ih
            intro hcon
            rcases hcon with h0 | h0
            · simp at h0
            · rw [List.getLast?_cons_cons] at h0
              have hh0 : h = [] := ih.mpr (Or.inr h0)
              rw [hh0] at hs
              have := splitOn_singleton_nil d _ hs
              simp at this
          | cons t1 t2 =>
            rw [List.getLast?_cons_cons] at ih ⊢
            rw [ih]
            simp [List.getLast?_cons_cons]
theorem getlineAll_eq :
    ∀ (fuel : Nat) (s : IStream), (pendingTokens ',' s).length < fuel →
      getlineAll fuel s = pendingTokens ',' s := by
  intro fuel
  induction fuel with
  | zero => intro s h; simp at h
  | succ n ih =>
    intro s h
    rcases hp : pendingTokens ',' s with _ | ⟨t, ts⟩
    · rcases getline_tokens_nil ',' s hp with h1 | h1
      · rcases hx : getline s ',' with ⟨s1, tok⟩
        rw [hx] at h1
        simp only at h1
        subst h1
        simp [getlineAll, hx]
      · rcases hx : getline s ',' with ⟨s1, _ | tok⟩
        · simp [getlineAll, hx]
        · rw [hx] at h1
          simp only at h1
          simp [getlineAll, hx, h1]
    · obtain ⟨h1, h2, h3⟩ := getline_tokens_cons ',' s t ts hp
      rcases hx : getline s ',' with ⟨s1, tok⟩
      rw [hx] at h1 h2 h3
      simp only at h1 h2 h3
      subst h1
      rw [hp] at h
      simp only [List.length_cons] at h
      have hlt : (pendingTokens ',' s1).length < n := by rw [h3]; omega
      simp only [getlineAll, hx, h2, if_true]
      rw [ih s1 hlt, h3]

theorem extractedFields_eq (l : Str) : extractedFields l = fields l := by
  unfold extractedFields fields
  have hlen : (pendingTokens ',' (IStream.open l)).length < l.length + 2 := by
    rw [pendingTokens_open]
    have := tokens_length_le ',' l
    omega
  rw [getlineAll_eq _ _ hlen, pendingTokens_open]

theorem fields_eq_splitOn (l : Str) (hne : l ≠ []) :
    fields l =
      if l.getLast? = some ',' then (splitOn ',' l).dropLast else splitOn ',' l := by
  unfold fields
  rw [tokens_eq_splitOn]
  by_cases hlast : l.getLast? = some ','
  · rw [if_pos hlast, if_pos ((splitOn_getLast ',' l).mpr (Or.inr hlast))]
  · rw [if_neg hlast, if_neg]
    intro h
    rcases (splitOn_getLast ',' l).mp h with h0 | h0
    · exact hne h0
    · exact hlast h0

/-- C13, as stated, fails on a line that ends in a comma: from `CS101,Intro,`
(two commas) the loader extracts the two fields `CS101` and `Intro`, not three;
and the line `CS101,` gives one field, so the load fails for want of a name,
while `CS101,,` gives the number and an empty name and loads. -/
theorem fields_extracted_counterexample :
    (extractedFields "CS101,Intro,".toList = ["CS101".toList, "Intro".toList] ∧
      splitOn ',' "CS101,Intro,".toList = ["CS101".toList, "Intro".toList, []] ∧
      "CS101,Intro,".toList.count ',' = 2) ∧
    (extractedFields "CS101,".toList = ["CS101".toList] ∧
      processFile "CS101,".toList [] = some (.missingNumberOrName, [])) ∧
    processFile "CS101,,".toList [] =
      some (.coursesLoaded, [⟨"CS101".toList, [], [], "CS101".toList⟩]) := by
  decide

/-- C13, amended: the fields the loader extracts from a non-empty line are the
pieces of the line between consecutive commas, character for character (joined
again with commas the pieces give the line, and no piece holds a comma), empty
pieces included, except that the line that ends in a comma gives no last empty
field: a line with `k` commas yields `k + 1` fields when it does not end in a
comma and `k` fields when it does. -/
theorem fields_extracted (l : Str) (hne : l ≠ []) :
    (",".toList.intercalate (splitOn ',' l) = l ∧ (∀ p ∈ splitOn ',' l, ',' ∉ p) ∧
      (splitOn ',' l).length = l.count ',' + 1) ∧
    (l.getLast? ≠ some ',' →
      extractedFields l = splitOn ',' l ∧ (extractedFields l).length = l.count ',' + 1) ∧
    (l.getLast? = some ',' →
      extractedFields l = (splitOn ',' l).dropLast ∧
      (splitOn ',' l).getLast? = some [] ∧
      (extractedFields l).length = l.count ',') := by
  have hf := fields_eq_splitOn l hne
  refine ⟨⟨intercalate_splitOn ',' l, splitOn_not_mem ',' l, splitOn_length ',' l⟩, ?_, ?_⟩
  · intro hlast
    rw [if_neg hlast] at hf
    rw [extractedFields_eq, hf]
    exact ⟨rfl, splitOn_length ',' l⟩
  · intro hlast
    rw [if_pos hlast] at hf
    rw [extractedFields_eq, hf]
    refine ⟨rfl, (splitOn_getLast ',' l).mpr (Or.inr hlast), ?_⟩
    rw [List.length_dropLast, splitOn_length]
    omega

theorem fields_extracted_witness :
    (extractedFields "CS301,Algorithms,CS101,CS201".toList =
        splitOn ',' "CS301,Algorithms,CS101,CS201".toList ∧
      (extractedFields "CS301,Algorithms,CS101,CS201".toList).length =
        "CS301,Algorithms,CS101,CS201".toList.count ',' + 1) ∧
    (extractedFields "CS101,,".toList).length = "CS101,,".toList.count ',' :=
  ⟨(fields_extracted "CS301,Algorithms,CS101,CS201".toList (by decide)).2.1 (by decide),
   ((fields_extracted "CS101,,".toList (by decide)).2.2 (by decide)).2.2⟩

/-! ### `openFile` -/

/-- C14: when the file cannot be opened, `openFile` returns `false`, writes
only `Error opening file.` (no load is run, so no message of `processFile`
appears), and leaves the collection as it was, whatever it was. -/
theorem openFile_unopened (cl : List Course) :
    openFile none cl = some (false, "Error opening file.\n".toList, cl) ∧
      openFiles [none] cl = some ([(false, "Error opening file.\n".toList)], cl) :=
  ⟨rfl, rfl⟩

theorem processFile_total (content : Str) (cl : List Course) :
    ∃ st cl2, processFile content cl = some (st, cl2) := by
  rw [processFile_eq]
  exact ⟨_, _, rfl⟩

theorem nonEmptyLines_accepted (content : Str) :
    (∀ l ∈ fileLines content, LineAccepted (courseNumbers content) l) ↔
      ∀ l ∈ nonEmptyLines content,
        2 ≤ (fields l).length ∧ ∀ p ∈ (fields l).drop 2, p ∈ courseNumbers content := by
  constructor
  · intro h l hl
    obtain ⟨hmem, hne⟩ := (mem_nonEmptyLines content l).mp hl
    rcases h l hmem with h0 | h0
    · exact absurd h0 hne
    · exact h0
  · intro h l hl
    by_cases hne : l = []
    · exact Or.inl hne
    · exact Or.inr (h l ((mem_nonEmptyLines content l).mpr ⟨hl, hne⟩))

/-- C15: `processFile` always returns, and the first offending non-empty line
decides what.  It succeeds exactly when every non-empty line yields at least two
fields and every third or later field of every non-empty line is the first
field of some non-empty line.  Otherwise, at the first line that is not so, it
fails with the missing-name message when that line yields fewer than two fields
and with the invalid-prerequisite message when that line has a third or later
field that is no line's first field; the fields are those the loader
extracts. -/
theorem processFile_outcome (content : Str) (cl : List Course) :
    (∃ st cl2, processFile content cl = some (st, cl2)) ∧
    ((∃ cl2, processFile content cl = some (.coursesLoaded, cl2)) ↔
      ∀ l ∈ nonEmptyLines content,
        2 ≤ (extractedFields l).length ∧
        ∀ p ∈ (extractedFields l).drop 2, p ∈ courseNumbers content) ∧
    (∀ pre l post, fileLines content = pre ++ l :: post → l ≠ [] →
      (∀ x ∈ pre, x ≠ [] →
        2 ≤ (extractedFields x).length ∧
        ∀ p ∈ (extractedFields x).drop 2, p ∈ courseNumbers content) →
      ((extractedFields l).length < 2 →
        ∃ cl2, processFile content cl = some (.missingNumberOrName, cl2)) ∧
      ((∃ p ∈ (extractedFields l).drop 2, p ∉ courseNumbers content) →
        ∃ cl2, processFile content cl = some (.invalidPrerequisite, cl2))) := by
  refine ⟨processFile_total content cl, ?_, ?_⟩
  · simp only [extractedFields_eq]
    rw [← nonEmptyLines_accepted]
    constructor
    · rintro ⟨cl2, h⟩
      exact processFile_loaded_accepted content cl cl2 h
    · intro hacc
      rcases processFile_cases content cl with
        ⟨_, hres⟩ | ⟨pre, l, post, st, hsplit, _, hrej, _, _, _⟩
      · exact ⟨_, hres⟩
      · exact absurd (hacc l (by rw [hsplit]; simp)) hrej
  · intro pre l post hsplit hne hpre
    simp only [extractedFields_eq] at hpre ⊢
    have hacc : ∀ x ∈ pre, LineAccepted (courseNumbers content) x := by
      intro x hx
      by_cases hx0 : x = []
      · exact Or.inl hx0
      · exact Or.inr (hpre x hx hx0)
    constructor
    · intro hlen
      refine ⟨_, processFile_rejected content cl pre l post _ hsplit hacc
        (lineResult_short _ l hne hlen)⟩
    · rintro ⟨p, hp, hpn⟩
      have hlen : 2 ≤ (fields l).length := by
        by_contra hcon
        have : (fields l).drop 2 = [] := List.drop_eq_nil_of_le (by omega)
        rw [this] at hp
        simp at hp
      refine ⟨_, processFile_rejected content cl pre l post _ hsplit hacc
        (lineResult_unknown _ l hlen ?_)⟩
      intro hall
      exact hpn ((mem_courseNumbers content p).mp (hall p hp))

theorem processFile_outcome_witness :
    (∃ cl2, processFile "CS101,Intro\n\nCS201\nCS301,Algorithms,CS999".toList [] =
        some (.missingNumberOrName, cl2)) ∧
      ∃ cl2, processFile "CS101,Intro\nCS301,Algorithms,CS999\nCS201".toList [] =
        some (.invalidPrerequisite, cl2) :=
  ⟨((processFile_outcome "CS101,Intro\n\nCS201\nCS301,Algorithms,CS999".toList []).2.2
      ["CS101,Intro".toList, []] "CS201".toList ["CS301,Algorithms,CS999".toList]
      (by decide) (by decide) (by decide)).1 (by decide),
   ((processFile_outcome "CS101,Intro\nCS301,Algorithms,CS999\nCS201".toList []).2.2
      ["CS101,Intro".toList] "CS301,Algorithms,CS999".toList ["CS201".toList]
      (by decide) (by decide) (by decide)).2 (by decide)⟩

theorem openFile_cases (content : Str) (cl : List Course) :
    openFile (some content) cl =
        some (true, "Courses loaded.\n".toList,
          cl ++ (nonEmptyLines content).map recordOf) ∧
      (∀ l ∈ fileLines content, LineAccepted (courseNumbers content) l) ∨
    ∃ st cl2, st.returned = false ∧ processFile content cl = some (st, cl2) ∧
      openFile (some content) cl = some (true, st.message, cl2) := by
  rcases processFile_cases content cl with
    ⟨hacc, hres⟩ | ⟨pre, l, post, st, _, _, _, _, hst, hres⟩
  · left
    exact ⟨by simp [openFile, hres, LoadStatus.message], hacc⟩
  · right
    refine ⟨st, _, ?_, hres, by simp [openFile, hres]⟩
    rcases hst with ⟨_, hst⟩ | ⟨_, _, hst⟩ <;> subst hst <;> rfl

theorem openFiles_prereqsStored :
    ∀ (files : List (Option Str)) (cl : List Course) (log : List (Bool × Str))
      (cl2 : List Course), PrereqsStored cl → openFiles files cl = some (log, cl2) →
      (∀ r ∈ log, r.2 = "Courses loaded.\n".toList ∨ r.2 = "Error opening file.\n".toList) →
      PrereqsStored cl2 := by
  intro files
  induction files with
  | nil =>
    intro cl log cl2 hinv h _
    simp only [openFiles, Option.some.injEq, Prod.mk.injEq] at h
    rw [← h.2]
    exact hinv
  | cons file rest ih =>
    intro cl log cl2 hinv h hlog
    cases file with
    | none =>
      simp only [openFiles, openFile] at h
      rcases hrest : openFiles rest cl with _ | ⟨log2, cl3⟩
      · rw [hrest] at h
        simp at h
      · rw [hrest] at h
        simp only [Option.some.injEq, Prod.mk.injEq] at h
        obtain ⟨h1, h2⟩ := h
        subst h2
        refine ih cl log2 cl3 hinv hrest ?_
        intro r hr
        exact hlog r (by rw [← h1]; exact List.mem_cons_of_mem _ hr)
    | some content =>
      rcases openFile_cases content cl with ⟨hopen, hacc⟩ | ⟨st, cl3, hst, _, hopen⟩
      · simp only [openFiles, hopen] at h
        rcases hrest : openFiles rest (cl ++ (nonEmptyLines content).map recordOf) with
          _ | ⟨log2, cl3⟩
        · rw [hrest] at h
          simp at h
        · rw [hrest] at h
          simp only [Option.some.injEq, Prod.mk.injEq] at h
          obtain ⟨h1, h2⟩ := h
          subst h2
          refine ih _ log2 cl3
            (prereqsStored_append _ _ hinv (prereqsStored_records content hacc)) hrest ?_
          intro r hr
          exact hlog r (by rw [← h1]; exact List.mem_cons_of_mem _ hr)
      · exfalso
        simp only [openFiles, hopen] at h
        rcases hrest : openFiles rest cl3 with _ | ⟨log2, cl4⟩
        · rw [hrest] at h
          simp at h
        · rw [hrest] at h
          simp only [Option.some.injEq, Prod.mk.injEq] at h
          obtain ⟨h1, _⟩ := h
          have hmem : (true, st.message) ∈ log := by rw [← h1]; simp
          have := hlog _ hmem
          cases st with
          | coursesLoaded => simp [LoadStatus.returned] at hst
          | invalidPrerequisite => revert this; decide
          | missingNumberOrName => revert this; decide

/-- C16, as stated, fails after a failed load: loading the file with the lines
`CS201,Data Structures,CS301` and `CS301` (no name) into the empty store fails
on the second line and leaves the record of `CS201`, whose prerequisite `CS301`
is the number of no stored record. -/
theorem prerequisites_reachable_counterexample :
    openFiles [some "CS201,Data Structures,CS301\nCS301".toList] [] =
        some ([(true, "Error: Course is missing a course number or course name.\n".toList)],
          [⟨"CS201".toList, "Data Structures".toList, ["CS301".toList],
            "CS201".toList⟩]) ∧
      ¬ PrereqsStored
        [⟨"CS201".toList, "Data Structures".toList, ["CS301".toList], "CS201".toList⟩] := by
  decide

/-- C16, amended: in every state reached from the empty store by a sequence of
calls of `openFile` none of which ends in an error of `processFile` (each call
loads its file or cannot open it), every prerequisite of every stored record is
the number of a stored record. -/
theorem prerequisites_reachable (files : List (Option Str)) (log : List (Bool × Str))
    (cl : List Course) (h : openFiles files [] = some (log, cl))
    (hlog : ∀ r ∈ log,
      r.2 = "Courses loaded.\n".toList ∨ r.2 = "Error opening file.\n".toList) :
    ∀ c ∈ cl, ∀ p ∈ c.prerequisites, ∃ c2 ∈ cl, c2.courseNumber = p :=
  openFiles_prereqsStored files [] log cl (by intro c hc; simp at hc) h hlog

theorem prerequisites_reachable_witness :
    openFiles [some exampleFile, none, some "CS401,Systems\nCS501,Networks,CS401".toList] [] =
        some ([(true, "Courses loaded.\n".toList), (false, "Error opening file.\n".toList),
            (true, "Courses loaded.\n".toList)],
          exampleCatalog ++
            [⟨"CS401".toList, "Systems".toList, [], "CS401".toList⟩,
             ⟨"CS501".toList, "Networks".toList, ["CS401".toList], "CS501".toList⟩]) ∧
      ∀ c ∈ exampleCatalog ++
          [⟨"CS401".toList, "Systems".toList, [], "CS401".toList⟩,
           ⟨"CS501".toList, "Networks".toList, ["CS401".toList], "CS501".toList⟩],
        ∀ p ∈ c.prerequisites,
          ∃ c2 ∈ exampleCatalog ++
            [⟨"CS401".toList, "Systems".toList, [], "CS401".toList⟩,
             ⟨"CS501".toList, "Networks".toList, ["CS401".toList], "CS501".toList⟩],
            c2.courseNumber = p :=
  ⟨by decide,
   prerequisites_reachable
     [some exampleFile, none, some "CS401,Systems\nCS501,Networks,CS401".toList]
     [(true, "Courses loaded.\n".toList), (false, "Error opening file.\n".toList),
       (true, "Courses loaded.\n".toList)]
     (exampleCatalog ++
       [⟨"CS401".toList, "Systems".toList, [], "CS401".toList⟩,
        ⟨"CS501".toList, "Networks".toList, ["CS401".toList], "CS501".toList⟩])
     (by decide) (by decide)⟩

/-- C17: `openFile` returns whether the file could be opened.  For a file that
opens it returns `true` whatever `processFile` returned, passing on the message
and the collection of `processFile`; so it returns `true` on the file `CS101`
(missing name) and on the file `CS201,Data Structures,CS999` (invalid
prerequisite), where `processFile` returns `false`. -/
theorem openFile_returned (file : Option Str) (cl : List Course) :
    (openFile file cl).map (fun r => r.1) = some file.isSome ∧
    (∀ content, file = some content →
      ∃ st cl2, processFile content cl = some (st, cl2) ∧
        openFile file cl = some (true, st.message, cl2)) ∧
    (LoadStatus.missingNumberOrName.returned = false ∧
      processFile "CS101".toList cl = some (.missingNumberOrName, cl) ∧
      openFile (some "CS101".toList) cl =
        some (true,
          "Error: Course is missing a course number or course name.\n".toList, cl)) ∧
    (LoadStatus.invalidPrerequisite.returned = false ∧
      processFile "CS201,Data Structures,CS999".toList cl =
        some (.invalidPrerequisite, cl) ∧
      openFile (some "CS201,Data Structures,CS999".toList) cl =
        some (true, "Error: Invalid prerequisite.\n".toList, cl)) := by
  have h1 : processFile "CS101".toList cl = some (.missingNumberOrName, cl) := by
    rw [processFile_rejected "CS101".toList cl [] "CS101".toList [] .missingNumberOrName
      (by decide) (by intro x hx; simp at hx) (by decide)]
    simp
  have h2 : processFile "CS201,Data Structures,CS999".toList cl =
      some (.invalidPrerequisite, cl) := by
    rw [processFile_rejected "CS201,Data Structures,CS999".toList cl []
      "CS201,Data Structures,CS999".toList [] .invalidPrerequisite
      (by decide) (by intro x hx; simp at hx) (by decide)]
    simp
  refine ⟨?_, ?_, ⟨rfl, h1, ?_⟩, ⟨rfl, h2, ?_⟩⟩
  · cases file with
    | none => rfl
    | some content =>
      obtain ⟨st, cl2, h⟩ := processFile_total content cl
      simp [openFile, h]
  · intro content hfile
    subst hfile
    obtain ⟨st, cl2, h⟩ := processFile_total content cl
    exact ⟨st, cl2, h, by simp [openFile, h]⟩
  · show (match processFile "CS101".toList cl with
      | none => none
      | some (status, courseList) => some (true, status.message, courseList)) = _
    rw [h1]
    rfl
  · show (match processFile "CS201,Data Structures,CS999".toList cl with
      | none => none
      | some (status, courseList) => some (true, status.message, courseList)) = _
    rw [h2]
    rfl

theorem openFile_returned_witness :
    ∃ st cl2, processFile exampleFile [] = some (st, cl2) ∧
      openFile (some exampleFile) [] = some (true, st.message, cl2) :=
  (openFile_returned (some exampleFile) []).2.1 exampleFile rfl

/-! ### The loop index of `displayCourse` -/

theorem loopAtCalls_eq (ps : List Str) :
    ∀ (n i : Nat), i + n ≤ ps.length → i + n ≤ intMax →
      loopAtCalls ps n i = List.range' i n := by
  intro n
  induction n with
  | zero => intro i _ _; rfl
  | succ n ih =>
    intro i h hmax
    have hi : i < ps.length := by omega
    have hi2 : i < intMax := by omega
    rw [loopAtCalls, List.get?_eq_get hi]
    simp only [hi2, if_true]
    rw [ih (i + 1) (by omega) (by omega)]
    rfl

/-- Up to `2 ^ 31` prerequisites (the loop index does not overflow),
`displayCourse` makes no access out of range.  It does not throw; the
difference `size() - 1` is computed only for a non-empty vector, where it does
not wrap (for an empty vector, where it would be `2 ^ 64 - 1`, no call of `at`
is made at all); and every index passed to `at`, in the loop and for the last
element, is below `size()`: the indices are `0, ..., size() - 2` and then
`size() - 1`. -/
theorem displayCourse_in_range (c : Course) (hmax : c.prerequisites.length ≤ 2 ^ 31) :
    (∃ out, displayCourse c = some out) ∧
    (c.prerequisites.length ≠ 0 →
      usub64 c.prerequisites.length 1 + 1 = c.prerequisites.length) ∧
    (c.prerequisites.length = 0 → displayCourseAtCalls c = []) ∧
    usub64 0 1 = 2 ^ 64 - 1 ∧
    displayCourseAtCalls c = List.range c.prerequisites.length ∧
    ∀ i ∈ displayCourseAtCalls c, i < c.prerequisites.length := by
  have hmax1 : c.prerequisites.length ≤ 2147483648 := by
    norm_num at hmax
    exact hmax
  have hcalls : displayCourseAtCalls c = List.range c.prerequisites.length := by
    unfold displayCourseAtCalls
    by_cases hlen : c.prerequisites.length = 0
    · simp [hlen]
    · have hsub : usub64 c.prerequisites.length 1 = c.prerequisites.length - 1 := by
        unfold usub64
        rw [if_pos (by omega)]
      have hmax2 : 0 + (c.prerequisites.length - 1) ≤ intMax := by
        rw [intMax_eq]
        omega
      simp only [ne_eq, hlen, not_false_eq_true, if_true, hsub]
      rw [displayLoop_eq _ _ _ _ (by omega) hmax2, loopAtCalls_eq _ _ _ (by omega) hmax2]
      simp only
      have h1 : c.prerequisites.length = (c.prerequisites.length - 1) + 1 := by omega
      conv_rhs => rw [h1, List.range_succ]
      rw [List.range_eq_range']
  refine ⟨⟨_, displayCourse_eq c hmax⟩, ?_, ?_, by decide, hcalls, ?_⟩
  · intro hlen
    unfold usub64
    rw [if_pos (by omega)]
    omega
  · intro hlen
    rw [hcalls, hlen]
    rfl
  · intro i hi
    rw [hcalls] at hi
    exact List.mem_range.mp hi

end CourseLoading
